import Mathlib

/-!
# xlisp core built-ins (`core.go`, package `slang`): a shallow embedding

The built-ins of `core.go` are extension functions of the `sabre` evaluator.
The evaluator is an external library, so everything the built-ins ask of it
(`sabre.Eval`, `Invoke`, `sabre.Compare`, `String()`, the `Seq` capability,
the dynamic type name) is a field of a `Host` record and every theorem
quantifies over all hosts.  The host owns the scope: evaluating a form or
invoking a function may change it, so `eval` and `invoke` return the new scope
together with their `(Value, error)` pair.

A Go function returning `(sabre.Value, error)` is a function into `Outcome`,
which adds a third alternative for a run-time panic (an unchecked type
assertion, an index out of range).
-/

namespace Slang

/-! ## Data model -/

/-- Dynamic values of the host (`sabre.Value`).  `absent` is the Go `nil`
interface value, `nil` is `sabre.Nil{}`.  `fn` and `other` stand for the
host-defined values the built-ins never look inside. -/
inductive Value where
  | absent
  | nil
  | bool (b : Bool)
  | int64 (n : Int)
  | string (s : String)
  | symbol (name : String)
  | keyword (name : String)
  | list (values : List Value)
  | vector (values : List Value)
  | fn (id : Nat)
  | other (tag : Nat)
  deriving Inhabited

/-- An error returned by the host evaluator (`sabre.Eval`, `Invoke`). -/
structure HostError where
  msg : String

/-- Modelled from the spec: the struct `invalidArgNumberError` is declared in a
file of the package that is not part of the sources at hand; the spec gives
it as an "invalid argument count" error carrying `(expected, actual)`.
`slangMap` returns the struct itself, `filter` and `reduce` return a pointer
to it, hence the two constructors.  `host` is an error that came out of the
host evaluator, `errorsNew` one made in `core.go` by `errors.New` or
`fmt.Errorf`. -/
inductive Error where
  | host (e : HostError)
  | errorsNew (msg : String)
  | invalidArgNumberError (expected actual : Nat)
  | invalidArgNumberErrorPtr (expected actual : Nat)

/-- Run-time panics of the Go code. -/
inductive Fault where
  | interfaceConversion (dynamicType : String)
  | indexOutOfRange (index length : Nat)
  | nilDereference
  | makesliceCap

/-- The three ways a built-in can end: `(v, nil)`, `(nil, err)`, a panic. -/
inductive Outcome where
  | value (v : Value)
  | error (e : Error)
  | fault (p : Fault)

/-- The capabilities of the host evaluator used by `core.go`. -/
structure Host (σ : Type) where
  /-- The call `sabre.Eval(scope, form)`. -/
  eval : σ → Value → Except HostError Value × σ
  /-- Whether the type assertion `v.(sabre.Invokable)` succeeds. -/
  invokable : Value → Bool
  /-- The call `f.Invoke(scope, args...)`. -/
  invoke : σ → Value → List Value → Except HostError Value × σ
  /-- The call `sabre.Compare(v1, v2)`. -/
  compare : Value → Value → Bool
  /-- The method `v.String()`. -/
  render : Value → String
  /-- The dynamic type as printed by `%T` and `reflect.TypeOf`. -/
  typeName : Value → String
  /-- Whether the type assertion `v.(sabre.Seq)` succeeds. -/
  isSeq : Value → Bool
  /-- The method `seq.First()`. -/
  first : Value → Value
  /-- The method `seq.Next()`, `none` being the nil `Seq`. -/
  next : Value → Option Value

variable {σ : Type}

/-- A `(Value, error)` pair handed back by the host, returned as it is. -/
def liftEval : Except HostError Value × σ → Outcome × σ
  | (.ok v, s) => (.value v, s)
  | (.error e, s) => (.error (.host e), s)

/-- The verb `%s` of `fmt` on a `sabre.Value`: the `String()` method, and
the marker of `fmt` for a nil interface value. -/
def fmtS (h : Host σ) : Value → String
  | .absent => "%!s(<nil>)"
  | v => h.render v

/-! ## `Case` -/

/-- The scanning loop of `Case`: `for ; start < len(args); start += 2`. -/
def caseLoop (h : Host σ) (scope : σ) (args : List Value) (res : Value) (start : Nat) :
    Outcome × σ :=
  if start < args.length then
    let val := args.getD start .absent
    if start + 1 ≥ args.length then
      (.value val, scope)
    else if h.compare res val then
      liftEval (h.eval scope (args.getD (start + 1) .absent))
    else
      caseLoop h scope args res (start + 2)
  else
    (.error (.errorsNew ("no matching clause for '" ++ fmtS h res ++ "'")), scope)
termination_by args.length - start

/-- `Case` implements the switch case construct. -/
def Case (h : Host σ) (scope : σ) (args : List Value) : Outcome × σ :=
  if args.length < 2 then
    (.error (.errorsNew "case requires at-least 2 args"), scope)
  else
    match h.eval scope (args.getD 0 .absent) with
    | (.error e, s1) => (.error (.host e), s1)
    | (.ok res, s1) =>
      if args.length = 2 then
        liftEval (h.eval s1 (args.getD 1 .absent))
      else
        caseLoop h s1 args res 1

/-! ## `Realize` -/

/-- The loop of `Realize`: `for seq != nil`, with `vals` the slice built so
far.  Each test of the loop condition takes one unit of fuel; `none` is a
loop that has not ended within the fuel. -/
def realizeLoop (h : Host σ) : Nat → Option Value → List Value → Option (List Value)
  | 0, _, _ => none
  | _ + 1, none, vals => some vals
  | fuel + 1, some seq, vals =>
    match h.first seq with
    | .absent => some vals
    | v => realizeLoop h fuel (h.next seq) (vals ++ [v])

/-- `Realize` realizes a sequence by continuously calling `First()` and
`Next()` until the sequence becomes nil.  The result is the field `Values` of
the `*sabre.List` it returns.  The loop also stops when `First()` is nil,
which the docstring of the function does not say: a sequence with a nil
element in the middle is cut there. -/
def Realize (h : Host σ) (fuel : Nat) (seq : Option Value) : Option (List Value) :=
  realizeLoop h fuel seq []

/-! ## `isTruthy` -/

/-- `isTruthy`: nil and `sabre.Nil{}` are false, a `sabre.Bool` is its own
value, everything else is true. -/
def isTruthy : Value → Bool
  | .absent => false
  | .nil => false
  | .bool b => b
  | _ => true

/-! ## `slangMap`, `filter`, `reduce` -/

/-- The loop of `slangMap` over `list.Values`, with `result` the slice built
so far.  `fn.(sabre.Invokable)` is an unchecked type assertion. -/
def mapLoop (h : Host σ) (fn : Value) : List Value → List Value → σ → Outcome × σ
  | [], result, scope => (.value (.list result), scope)
  | v :: rest, result, scope =>
    if h.invokable fn then
      match h.invoke scope fn [v] with
      | (.error e, s) => (.error (.host e), s)
      | (.ok applied, s) => mapLoop h fn rest (result ++ [applied]) s
    else
      (.fault (.interfaceConversion (h.typeName fn)), scope)

/-- The built-in `map`. -/
def slangMap (h : Host σ) (fuel : Nat) (scope : σ) (args : List Value) :
    Option (Outcome × σ) :=
  if args.length < 2 then
    some (.error (.invalidArgNumberError 2 args.length), scope)
  else
    match h.eval scope (args.getD 0 .absent) with
    | (.error e, s1) => some (.error (.host e), s1)
    | (.ok fn, s1) =>
      match h.eval s1 (args.getD 1 .absent) with
      | (.error e, s2) => some (.error (.host e), s2)
      | (.ok val, s2) =>
        if h.isSeq val then
          match Realize h fuel (some val) with
          | none => none
          | some list => some (mapLoop h fn list [] s2)
        else
          some (.error (.errorsNew
            ("invalid type given; expected sabre.Seq got " ++ h.typeName val)), s2)

/-- The loop of `filter` over `list.Values`. -/
def filterLoop (h : Host σ) (fn : Value) : List Value → List Value → σ → Outcome × σ
  | [], result, scope => (.value (.list result), scope)
  | v :: rest, result, scope =>
    if h.invokable fn then
      match h.invoke scope fn [v] with
      | (.error e, s) => (.error (.host e), s)
      | (.ok applied, s) =>
        if isTruthy applied then filterLoop h fn rest (result ++ [v]) s
        else filterLoop h fn rest result s
    else
      (.fault (.interfaceConversion (h.typeName fn)), scope)

/-- The built-in `filter`. -/
def filter (h : Host σ) (fuel : Nat) (scope : σ) (args : List Value) :
    Option (Outcome × σ) :=
  if args.length < 2 then
    some (.error (.invalidArgNumberErrorPtr 2 args.length), scope)
  else
    match h.eval scope (args.getD 0 .absent) with
    | (.error e, s1) => some (.error (.host e), s1)
    | (.ok fn, s1) =>
      match h.eval s1 (args.getD 1 .absent) with
      | (.error e, s2) => some (.error (.host e), s2)
      | (.ok val, s2) =>
        if h.isSeq val then
          match Realize h fuel (some val) with
          | none => none
          | some list => some (filterLoop h fn list [] s2)
        else
          some (.error (.errorsNew
            ("Invalid type given; expected sabre.Seq instead got " ++ h.typeName val)), s2)

/-- The folding loop of `reduce` over `list.Values`, `result` being the
accumulator. -/
def reduceLoop (h : Host σ) (fn : Value) : List Value → Value → σ → Outcome × σ
  | [], result, scope => (.value result, scope)
  | v :: rest, result, scope =>
    if h.invokable fn then
      match h.invoke scope fn [result, v] with
      | (.error e, s) => (.error (.host e), s)
      | (.ok applied, s) => reduceLoop h fn rest applied s
    else
      (.fault (.interfaceConversion (h.typeName fn)), scope)

/-- The built-in `reduce`.  The list is at position 2 when there are exactly
three argument forms and at position 1 otherwise (the comment in the source
has the two positions the other way round; the code is followed here);
without a seed the first element of the realized list is taken by
`list.Values[0]`, unchecked. -/
def reduce (h : Host σ) (fuel : Nat) (scope : σ) (args : List Value) :
    Option (Outcome × σ) :=
  if args.length < 2 then
    some (.error (.invalidArgNumberErrorPtr 2 args.length), scope)
  else
    match h.eval scope (args.getD 0 .absent) with
    | (.error e, s1) => some (.error (.host e), s1)
    | (.ok fn, s1) =>
      let listPos := if args.length = 3 then 2 else 1
      match h.eval s1 (args.getD listPos .absent) with
      | (.error e, s2) => some (.error (.host e), s2)
      | (.ok val, s2) =>
        if h.isSeq val then
          match Realize h fuel (some val) with
          | none => none
          | some list =>
            if args.length = 3 then
              match h.eval s2 (args.getD 1 .absent) with
              | (.error e, s3) => some (.error (.host e), s3)
              | (.ok result, s3) => some (reduceLoop h fn list result s3)
            else
              match list with
              | [] => some (.fault (.indexOutOfRange 0 0), s2)
              | result :: rest => some (reduceLoop h fn rest result s2)
        else
          some (.error (.errorsNew
            ("Invalid type given; expected sabre.Seq instead got " ++ h.typeName val)), s2)

/-! ## Threading: `ThreadFirst`, `ThreadLast`, `threadCall` -/

/-- The verb `%s` of `fmt` on `reflect.TypeOf(v)`: the name of the dynamic
type, and the marker of `fmt` for the nil type of a nil interface value. -/
def fmtTypeOf (h : Host σ) : Value → String
  | .absent => "%!s(<nil>)"
  | v => h.typeName v

/-- The loop of `threadCall` over `args[1:]`, with `res` the running result.
A step that is a `*sabre.List` is modified in place: the second component
of the result is the list of the steps as the loop leaves them (each step
is taken to be a list object of its own).  On an empty list thread-first
panics in `f.Values[0]` or in `f.Values[1:]`, whichever the compiled code
checks first; the model records it as the index 0 out of range. -/
def threadLoop (h : Host σ) (last : Bool) :
    List Value → Value → σ → (Outcome × σ) × List Value
  | [], res, scope => ((.value res, scope), [])
  | .list values :: rest, res, scope =>
    if last then
      match h.eval scope (.list (values ++ [res])) with
      | (.error e, s) => ((.error (.host e), s), .list (values ++ [res]) :: rest)
      | (.ok r, s) =>
        ((threadLoop h last rest r s).1, .list (values ++ [res]) :: (threadLoop h last rest r s).2)
    else
      match values with
      | [] => ((.fault (.indexOutOfRange 0 0), scope), .list [] :: rest)
      | op :: tail =>
        match h.eval scope (.list (op :: res :: tail)) with
        | (.error e, s) => ((.error (.host e), s), .list (op :: res :: tail) :: rest)
        | (.ok r, s) =>
          ((threadLoop h last rest r s).1,
            .list (op :: res :: tail) :: (threadLoop h last rest r s).2)
  | form :: rest, res, scope =>
    if h.invokable form then
      match h.invoke scope form [res] with
      | (.error e, s) => ((.error (.host e), s), form :: rest)
      | (.ok r, s) => ((threadLoop h last rest r s).1, form :: (threadLoop h last rest r s).2)
    else
      ((.error (.errorsNew (fmtTypeOf h res ++ " is not invokable")), scope), form :: rest)

/-- The function `threadCall`; the second component is the argument forms as
the call leaves them. -/
def threadCall (h : Host σ) (scope : σ) (args : List Value) (last : Bool) :
    (Outcome × σ) × List Value :=
  match args with
  | [] => ((.error (.errorsNew "at-least 1 argument required"), scope), [])
  | seed :: steps =>
    match h.eval scope seed with
    | (.error e, s) => ((.error (.host e), s), seed :: steps)
    | (.ok res, s) => ((threadLoop h last steps res s).1, seed :: (threadLoop h last steps res s).2)

/-- `ThreadFirst` threads the expressions through forms by inserting result
of eval as first argument to next expr. -/
def ThreadFirst (h : Host σ) (scope : σ) (args : List Value) : (Outcome × σ) × List Value :=
  threadCall h scope args false

/-- `ThreadLast` threads the expressions through forms by inserting result
of eval as last argument to next expr. -/
def ThreadLast (h : Host σ) (scope : σ) (args : List Value) : (Outcome × σ) × List Value :=
  threadCall h scope args true

/-! ## `MakeString` and `Throw` -/

/-- The call `strings.Trim(s, "\"")` on the characters of `s`: every
leading and every trailing quote character is removed. -/
def trimQuoteChars (cs : List Char) : List Char :=
  (cs.rdropWhile (· == '"')).dropWhile (· == '"')

/-- The call `strings.Trim(s, "\"")`. -/
def trimQuote (s : String) : String :=
  ⟨trimQuoteChars s.data⟩

/-- The loop of `MakeString` over `vals`, with `sb` the contents of the
string builder.  `v.String()` on a nil interface value panics. -/
def makeStringLoop (h : Host σ) : List Value → String → Except Fault String
  | [], sb => .ok sb
  | .absent :: _, _ => .error .nilDereference
  | v :: rest, sb => makeStringLoop h rest (sb ++ trimQuote (h.render v))

/-- `MakeString` returns stringified version of all args. -/
def MakeString (h : Host σ) (vals : List Value) : Outcome :=
  match vals with
  | [] => .value (.string "")
  | [.nil] => .value (.string "")
  | [.absent] => .value (.string "")
  | [v] => .value (.string (trimQuote (h.render v)))
  | vals =>
    match makeStringLoop h vals "" with
    | .ok str => .value (.string str)
    | .error p => .fault p

/-- `Throw` converts args to strings and returns an error with all the
strings joined: `errors.New(strings.Trim(MakeString(args...).String(), "\""))`. -/
def Throw (h : Host σ) (args : List Value) : Outcome :=
  match MakeString h args with
  | .value v => .error (.errorsNew (trimQuote (h.render v)))
  | o => o

/-! ## `slangRange` -/

/-- Arithmetic of the Go type `int` (64 bits): the representative of `x`
in `[-2^63, 2^63)`. -/
def wrapInt (x : Int) : Int :=
  (x + 2 ^ 63) % 2 ^ 64 - 2 ^ 63

/-- The loop `for i := ...; i < max; i += step` of the three range
functions (`i++` is the step 1), with `result` the slice built so far.
Each test of the loop condition takes one unit of fuel. -/
def rangeLoop (max step : Int) : Nat → Int → List Value → Option (List Value)
  | 0, _, _ => none
  | fuel + 1, i, result =>
    if i < max then rangeLoop max step fuel (wrapInt (i + step)) (result ++ [.int64 i])
    else some result

/-- The call `make([]sabre.Value, 0, cap)` followed by `body`: `make` is a
run-time panic ("makeslice: cap out of range") when the capacity is negative
and when it is above what the allocator grants.  That limit belongs to the
Go runtime and the machine, not to `core.go`, and is the parameter
`capLimit` (on a 64-bit platform with 48-bit heap addresses `make` refuses
more than `2^44` values of 16 bytes).  The later growth of the slice by
`append` is taken to succeed. -/
def withCap (capLimit cap : Int) (body : Option (List Value)) : Option Outcome :=
  if cap < 0 ∨ capLimit < cap then some (.fault .makesliceCap)
  else body.map (fun result => .value (.list result))

/-- The function `slangRange1`, wrapped into the list that `slangRange`
returns. -/
def slangRange1 (capLimit : Int) (fuel : Nat) (max : Int) : Option Outcome :=
  withCap capLimit max (rangeLoop max 1 fuel 0 [])

/-- The function `slangRange2`, wrapped into the list that `slangRange`
returns. -/
def slangRange2 (capLimit : Int) (fuel : Nat) (min max : Int) : Option Outcome :=
  withCap capLimit (wrapInt (max - min)) (rangeLoop max 1 fuel min [])

/-- The function `slangRange3`, wrapped into the list that `slangRange`
returns.  The capacity asked of `make` is `max - min` whatever the step. -/
def slangRange3 (capLimit : Int) (fuel : Nat) (min max step : Int) : Option Outcome :=
  withCap capLimit (wrapInt (max - min)) (rangeLoop max step fuel min [])

/-- The function `slangRange`: with another number of arguments than one,
two or three the result is the empty list. -/
def slangRange (capLimit : Int) (fuel : Nat) (args : List Int) : Option Outcome :=
  match args with
  | [max] => slangRange1 capLimit fuel max
  | [min, max] => slangRange2 capLimit fuel min max
  | [min, max, step] => slangRange3 capLimit fuel min max step
  | _ => some (.value (.list []))

/-! ## `doSeq` -/

/-- The method call `form.Eval(scope)`: a nil form is a nil dereference,
any other form is evaluated by the host. -/
def evalMethod (h : Host σ) (scope : σ) : Value → Outcome × σ
  | .absent => (.fault .nilDereference, scope)
  | form => liftEval (h.eval scope form)

/-- The inner loop of `doSeq` over the body forms `args[1:]`: `none` when
every body has been evaluated, and the error (or panic) of the first body
that fails. -/
def doSeqBodies (h : Host σ) : List Value → σ → Option Outcome × σ
  | [], s => (none, s)
  | body :: rest, s =>
    match evalMethod h s body with
    | (.value _, s1) => doSeqBodies h rest s1
    | (o, s1) => (some o, s1)

/-- The outer loop of `doSeq` over the values of the list: `scope.Bind`,
then the bodies. -/
def doSeqLoop (h : Host σ) (bind : σ → String → Value → σ) (name : String)
    (bodies : List Value) : List Value → σ → Outcome × σ
  | [], s => (.value .nil, s)
  | v :: rest, s =>
    match doSeqBodies h bodies (bind s name v) with
    | (none, s1) => doSeqLoop h bind name bodies rest s1
    | (some o, s1) => (o, s1)

/-- The built-in `doseq`.  `bind` is the method `scope.Bind` of the host.
The accesses `args[0]` and `vecs.Values[1]` and the type assertion
`list.(*sabre.List)` are unchecked. -/
def doSeq (h : Host σ) (bind : σ → String → Value → σ) (scope : σ) (args : List Value) :
    Outcome × σ :=
  match args with
  | [] => (.fault (.indexOutOfRange 0 0), scope)
  | .vector values :: bodies =>
    if values.length ≤ 1 then
      (.fault (.indexOutOfRange 1 values.length), scope)
    else
      match evalMethod h scope (values.getD 1 .absent) with
      | (.value list, s1) =>
        match values.getD 0 .absent with
        | .symbol name =>
          match list with
          | .list items => doSeqLoop h bind name bodies items s1
          | v => (.fault (.interfaceConversion (h.typeName v)), s1)
        | _ => (.error (.errorsNew "invalid type; expected symbol"), s1)
      | (o, s1) => (o, s1)
  | _ :: _ => (.error (.errorsNew "Invalid type"), scope)

/-! ## Observing the calls made to the host -/

/-- An error made by the built-in itself, as opposed to a value, a panic or
an error handed back by the host evaluator. -/
def Outcome.raisedHere : Outcome → Bool
  | .error (.host _) => false
  | .error _ => true
  | _ => false

/-- A call into the host that can run code. -/
inductive Event where
  | eval (form : Value)
  | invoke (fn : Value) (args : List Value)

/-- The host `h` with a log of the calls to `Eval` and `Invoke`, in the order
in which they are made. -/
def traced (h : Host σ) : Host (σ × List Event) where
  eval := fun s form => ((h.eval s.1 form).1, ((h.eval s.1 form).2, s.2 ++ [.eval form]))
  invokable := h.invokable
  invoke := fun s fn args =>
    ((h.invoke s.1 fn args).1, ((h.invoke s.1 fn args).2, s.2 ++ [.invoke fn args]))
  compare := h.compare
  render := h.render
  typeName := h.typeName
  isSeq := h.isSeq
  first := h.first
  next := h.next

/-! ## Specification-side notions -/

/-- Pulling a sequence by hand to exhaustion: `Pulls h seq es` says that the
chain of `First()`/`Next()` starting at `seq` yields the non-nil elements `es`
in this order and then ends, either in a nil `Next()` or in a nil `First()`. -/
inductive Pulls (h : Host σ) : Option Value → List Value → Prop where
  | nilSeq : Pulls h none []
  | nilFirst (seq : Value) : h.first seq = .absent → Pulls h (some seq) []
  | step (seq : Value) (es : List Value) :
      h.first seq ≠ .absent → Pulls h (h.next seq) es →
      Pulls h (some seq) (h.first seq :: es)

/-- Invoking `fn` on each element in turn, all invocations succeeding:
`InvokeEach h fn s es rs s1` says that, starting in scope `s`, the calls
`fn(e)` for `e` in `es`, made from left to right, return `rs` and leave the
scope `s1`. -/
inductive InvokeEach (h : Host σ) (fn : Value) : σ → List Value → List Value → σ → Prop where
  | nil (s : σ) : InvokeEach h fn s [] [] s
  | cons (s s1 s2 : σ) (e r : Value) (es rs : List Value) :
      h.invoke s fn [e] = (.ok r, s1) → InvokeEach h fn s1 es rs s2 →
      InvokeEach h fn s (e :: es) (r :: rs) s2

/-- The elements of `es` whose result in `rs`, at the same position, is
truthy. -/
def keptBy (es rs : List Value) : List Value :=
  ((es.zip rs).filter (fun p => isTruthy p.2)).map Prod.fst

/-- One step of a left fold through the host: `fn(acc, e)` in the scope
reached so far; an error stops every later step. -/
def foldStep (h : Host σ) (fn : Value) (acc : Except HostError Value × σ) (e : Value) :
    Except HostError Value × σ :=
  match acc with
  | (.ok a, s) => h.invoke s fn [a, e]
  | (.error x, s) => (.error x, s)

/-- One step of the pipeline as the threading contract words it, on the
state reached so far: a call form gets the running result spliced in (after
the operator for thread-first, at the end for thread-last) and is evaluated;
an invokable value is invoked on the running result alone; anything else is
the "not invokable" error.  A failed pipeline stays as it is. -/
def pipelineStep (h : Host σ) (last : Bool) (acc : Outcome × σ) (step : Value) :
    Outcome × σ :=
  match acc with
  | (.value r, s) =>
    match step with
    | .list values =>
      liftEval (h.eval s
        (.list (if last then values ++ [r] else values.take 1 ++ r :: values.drop 1)))
    | f =>
      if h.invokable f then liftEval (h.invoke s f [r])
      else (.error (.errorsNew (fmtTypeOf h r ++ " is not invokable")), s)
  | other => other

/-- A list of characters that neither begins nor ends with a quote
character. -/
def NoEdgeQuote (cs : List Char) : Prop :=
  cs.head? ≠ some '"' ∧ cs.getLast? ≠ some '"'

/-- The concatenation of strings, in order and with no separator. -/
def concatAll : List String → String
  | [] => ""
  | s :: rest => s ++ concatAll rest

/-- One quote character removed from the front, when there is one. -/
def dropOneQuote : List Char → List Char
  | [] => []
  | c :: rest => if c == '"' then rest else c :: rest

/-- One layer of surrounding quote characters removed: one leading and one
trailing quote character, each when present. -/
def stripOneLayer (s : String) : String :=
  ⟨(dropOneQuote (dropOneQuote s.data).reverse).reverse⟩

/-! ## A concrete host

The theorems hold for every host.  To run them on concrete calls a small
host is fixed here: a scope is an association list, a symbol evaluates to
its binding, every other form evaluates to itself, lists and vectors are the
sequences (with the `First`/`Next` of `sabre.Values`), and four functions
are invokable: `fn 0` adds integers, `fn 1` is the identity, `fn 2` always
answers `true` and `fn 3` always answers `false`. -/

/-- Scopes of the concrete host. -/
abbrev DemoScope := List (String × Value)

/-- Evaluation in the concrete host. -/
def demoEval (scope : DemoScope) : Value → Except HostError Value × DemoScope
  | .symbol name =>
    match scope.lookup name with
    | some v => (.ok v, scope)
    | none => (.error ⟨"unable to resolve symbol"⟩, scope)
  | .absent => (.ok .nil, scope)
  | v => (.ok v, scope)

/-- The sum of a list of integer values, `none` if one of them is not an
integer. -/
def sumInts : List Value → Option Int
  | [] => some 0
  | .int64 n :: rest => (sumInts rest).map (n + ·)
  | _ :: _ => none

/-- Invocation in the concrete host. -/
def demoInvoke (scope : DemoScope) : Value → List Value → Except HostError Value × DemoScope
  | .fn 0, args =>
    match sumInts args with
    | some n => (.ok (.int64 n), scope)
    | none => (.error ⟨"+ expects integers"⟩, scope)
  | .fn 1, [v] => (.ok v, scope)
  | .fn 2, _ => (.ok (.bool true), scope)
  | .fn 3, _ => (.ok (.bool false), scope)
  | _, _ => (.error ⟨"cannot invoke"⟩, scope)

/-- Equality of scalar values in the concrete host. -/
def demoCompare : Value → Value → Bool
  | .absent, .absent => true
  | .nil, .nil => true
  | .bool a, .bool b => a == b
  | .int64 a, .int64 b => a == b
  | .string a, .string b => a == b
  | .symbol a, .symbol b => a == b
  | .keyword a, .keyword b => a == b
  | _, _ => false

/-- Rendering in the concrete host: a string is rendered between quotes. -/
def demoRender : Value → String
  | .absent => ""
  | .nil => "nil"
  | .bool true => "true"
  | .bool false => "false"
  | .int64 n => toString n
  | .string s => "\"" ++ s ++ "\""
  | .symbol name => name
  | .keyword name => ":" ++ name
  | .list _ => "(...)"
  | .vector _ => "[...]"
  | .fn _ => "fn"
  | .other _ => "other"

/-- Dynamic type names in the concrete host. -/
def demoTypeName : Value → String
  | .absent => "<nil>"
  | .nil => "sabre.Nil"
  | .bool _ => "sabre.Bool"
  | .int64 _ => "sabre.Int64"
  | .string _ => "sabre.String"
  | .symbol _ => "sabre.Symbol"
  | .keyword _ => "sabre.Keyword"
  | .list _ => "*sabre.List"
  | .vector _ => "sabre.Vector"
  | .fn _ => "*sabre.Fn"
  | .other _ => "other"

/-- The method `First` of `sabre.Values`: nil when there is no value. -/
def valuesFirst : List Value → Value
  | [] => .absent
  | v :: _ => v

/-- The method `Next` of `sabre.Values`: nil when at most one value is left. -/
def valuesNext : List Value → Option Value
  | [] => none
  | [_] => none
  | _ :: rest => some (.list rest)

/-- The concrete host. -/
def demoHost : Host DemoScope where
  eval := demoEval
  invokable := fun v => match v with
    | .fn _ => true
    | _ => false
  invoke := demoInvoke
  compare := demoCompare
  render := demoRender
  typeName := demoTypeName
  isSeq := fun v => match v with
    | .list _ => true
    | .vector _ => true
    | _ => false
  first := fun v => match v with
    | .list vs => valuesFirst vs
    | .vector vs => valuesFirst vs
    | _ => .absent
  next := fun v => match v with
    | .list vs => valuesNext vs
    | .vector vs => valuesNext vs
    | _ => none

/-- The method `Bind` of the scopes of the concrete host: the new binding
goes in front. -/
def demoBind (scope : DemoScope) (name : String) (v : Value) : DemoScope :=
  (name, v) :: scope

/-! ## `Case`: theorems -/

/-- The scan of `Case` started at `start` reaches the first matching key at
index `i = start + 2 * k` and evaluates the body after it. -/
theorem caseLoop_reaches (h : Host σ) (s : σ) (args : List Value) (res : Value) (i : Nat)
    (hi : i + 1 < args.length) (hcmp : h.compare res (args.getD i .absent) = true) :
    ∀ (k start : Nat), start + 2 * k = i →
      (∀ j, j % 2 = start % 2 → start ≤ j → j < i →
        h.compare res (args.getD j .absent) = false) →
      caseLoop h s args res start = liftEval (h.eval s (args.getD (i + 1) .absent)) := by
  intro k
  induction k with
  | zero =>
    intro start hst _
    have hst : start = i := by omega
    subst hst
    rw [caseLoop]
    have h1 : start < args.length := by omega
    have h2 : ¬ (start + 1 ≥ args.length) := by omega
    simp only [h1, h2, hcmp, if_true, if_false]
  | succ k ih =>
    intro start hst hmin
    rw [caseLoop]
    have h1 : start < args.length := by omega
    have h2 : ¬ (start + 1 ≥ args.length) := by omega
    have h3 : h.compare res (args.getD start .absent) = false :=
      hmin start rfl (Nat.le_refl _) (by omega)
    simp only [h1, h2, h3, if_true, if_false]
    simp only [Bool.false_eq_true, if_false]
    exact ih (start + 2) (by omega) (fun j hj hle hlt => hmin j (by omega) (by omega) hlt)

/-- With at least three forms and a subject that evaluates to `v`, `Case`
is the scan from index 1. -/
theorem Case_eq_caseLoop (h : Host σ) (scope s1 : σ) (args : List Value) (v : Value)
    (hlen : 3 ≤ args.length) (hsubj : h.eval scope (args.getD 0 .absent) = (.ok v, s1)) :
    Case h scope args = caseLoop h s1 args v 1 := by
  have h1 : ¬ (args.length < 2) := by omega
  have h2 : ¬ (args.length = 2) := by omega
  simp only [Case, h1, h2, if_false, hsubj]

/-- The first matching clause, for any host. -/
theorem Case_match_eq (h : Host σ) (scope s1 : σ) (args : List Value) (v : Value) (i : Nat)
    (hlen : 3 ≤ args.length)
    (hsubj : h.eval scope (args.getD 0 .absent) = (.ok v, s1))
    (hodd : i % 2 = 1) (hi : i + 1 < args.length)
    (hcmp : h.compare v (args.getD i .absent) = true)
    (hmin : ∀ j, j % 2 = 1 → j < i → h.compare v (args.getD j .absent) = false) :
    Case h scope args = liftEval (h.eval s1 (args.getD (i + 1) .absent)) := by
  rw [Case_eq_caseLoop h scope s1 args v hlen hsubj]
  exact caseLoop_reaches h s1 args v i hi hcmp (i / 2) 1 (by omega)
    (fun j hj _ hlt => hmin j (by omega) hlt)

/-- The log of a traced evaluation. -/
theorem traced_eval (h : Host σ) (s : σ) (log : List Event) (form : Value) :
    (traced h).eval (s, log) form =
      ((h.eval s form).1, ((h.eval s form).2, log ++ [Event.eval form])) := rfl

/-- The scope and log after a host result has been returned as it is. -/
theorem liftEval_snd (r : Except HostError Value × σ) : (liftEval r).2 = r.2 := by
  rcases r with ⟨r | r, s⟩ <;> rfl

/-- C1. `Case`, first match wins: with at least three forms and a subject
that evaluates to `v`, if `i` is the smallest odd index with a form after
it whose key `args[i]`, taken literally, compares equal to `v`, then `Case`
returns exactly what evaluating `args[i+1]` returns (value or error, and
scope); the calls made to the evaluator are the subject, once, and that
body, and nothing else. -/
theorem Case_first_match_wins (h : Host σ) (scope s1 : σ) (args : List Value) (v : Value)
    (i : Nat) (hlen : 3 ≤ args.length)
    (hsubj : h.eval scope (args.getD 0 .absent) = (.ok v, s1))
    (hodd : i % 2 = 1) (hi : i + 1 < args.length)
    (hcmp : h.compare v (args.getD i .absent) = true)
    (hmin : ∀ j, j % 2 = 1 → j < i → h.compare v (args.getD j .absent) = false) :
    Case h scope args = liftEval (h.eval s1 (args.getD (i + 1) .absent)) ∧
    (Case (traced h) (scope, []) args).2.2 =
      [Event.eval (args.getD 0 .absent), Event.eval (args.getD (i + 1) .absent)] := by
  refine ⟨Case_match_eq h scope s1 args v i hlen hsubj hodd hi hcmp hmin, ?_⟩
  have ht : (traced h).eval (scope, []) (args.getD 0 .absent) =
      (.ok v, (s1, [Event.eval (args.getD 0 .absent)])) := by
    rw [traced_eval, hsubj]; rfl
  rw [Case_match_eq (traced h) (scope, []) _ args v i hlen ht hodd hi hcmp hmin,
    liftEval_snd, traced_eval]
  rfl

/-- C1, the example of the spec: `case(2, 1, "a", 2, "b", "default")` is
`"b"`. -/
theorem Case_first_match_wins_witness :
    Case demoHost [] [.int64 2, .int64 1, .string "a", .int64 2, .string "b",
      .string "default"] = (.value (.string "b"), []) ∧
    (Case (traced demoHost) ([], []) [.int64 2, .int64 1, .string "a", .int64 2, .string "b",
      .string "default"]).2.2 = [Event.eval (.int64 2), Event.eval (.string "b")] :=
  Case_first_match_wins demoHost [] [] [.int64 2, .int64 1, .string "a", .int64 2,
    .string "b", .string "default"] (.int64 2) 3 (by decide) rfl (by decide) (by decide) rfl
    (by
      intro j hj hlt
      interval_cases j
      · simp at hj
      · rfl
      · simp at hj)

/-- The scan of `Case` started at `start` with no matching key up to the
single leftover form at index `start + 2 * k` returns that form as it is. -/
theorem caseLoop_leftover (h : Host σ) (s : σ) (args : List Value) (res : Value) :
    ∀ (k start : Nat), start + 2 * k + 1 = args.length →
      (∀ j, j % 2 = start % 2 → start ≤ j → j + 1 < args.length →
        h.compare res (args.getD j .absent) = false) →
      caseLoop h s args res start = (.value (args.getD (args.length - 1) .absent), s) := by
  intro k
  induction k with
  | zero =>
    intro start hst _
    rw [caseLoop]
    have h1 : start < args.length := by omega
    have h2 : start + 1 ≥ args.length := by omega
    have h3 : args.length - 1 = start := by omega
    simp only [h1, h2, h3, if_true]
  | succ k ih =>
    intro start hst hmin
    rw [caseLoop]
    have h1 : start < args.length := by omega
    have h2 : ¬ (start + 1 ≥ args.length) := by omega
    have h3 : h.compare res (args.getD start .absent) = false :=
      hmin start rfl (Nat.le_refl _) (by omega)
    simp only [h1, h2, h3, if_true, if_false]
    simp only [Bool.false_eq_true, if_false]
    exact ih (start + 2) (by omega) (fun j hj hle hlt => hmin j (by omega) (by omega) hlt)

/-- The scan of `Case` started at `start` with no matching key and no
leftover form ends in the "no matching clause" error. -/
theorem caseLoop_exhausted (h : Host σ) (s : σ) (args : List Value) (res : Value) :
    ∀ (k start : Nat), start + 2 * k = args.length →
      (∀ j, j % 2 = start % 2 → start ≤ j → j < args.length →
        h.compare res (args.getD j .absent) = false) →
      caseLoop h s args res start =
        (.error (.errorsNew ("no matching clause for '" ++ fmtS h res ++ "'")), s) := by
  intro k
  induction k with
  | zero =>
    intro start hst _
    rw [caseLoop]
    have h1 : ¬ (start < args.length) := by omega
    simp only [h1, if_false]
  | succ k ih =>
    intro start hst hmin
    rw [caseLoop]
    have h1 : start < args.length := by omega
    have h2 : ¬ (start + 1 ≥ args.length) := by omega
    have h3 : h.compare res (args.getD start .absent) = false :=
      hmin start rfl (Nat.le_refl _) (by omega)
    simp only [h1, h2, h3, if_true, if_false]
    simp only [Bool.false_eq_true, if_false]
    exact ih (start + 2) (by omega) (fun j hj hle hlt => hmin j (by omega) (by omega) hlt)

/-- A host result returned as it is is never an error of the built-in. -/
theorem liftEval_not_raisedHere (r : Except HostError Value × σ) :
    (liftEval r).1.raisedHere = false := by
  rcases r with ⟨r | r, s⟩ <;> rfl

/-- When the scan of `Case` ends in an error of its own, the forms from
`start` on come in pairs and no key among them matches. -/
theorem caseLoop_raisedHere (h : Host σ) (s : σ) (args : List Value) (res : Value) :
    ∀ (n start : Nat), args.length - start = n → start ≤ args.length →
      (caseLoop h s args res start).1.raisedHere = true →
      (args.length - start) % 2 = 0 ∧
      ∀ j, j % 2 = start % 2 → start ≤ j → j < args.length →
        h.compare res (args.getD j .absent) = false := by
  intro n
  induction n using Nat.strong_induction_on with
  | _ n ih =>
    intro start hn hle hown
    rw [caseLoop] at hown
    by_cases h1 : start < args.length
    · by_cases h2 : start + 1 ≥ args.length
      · simp only [h1, h2, if_true] at hown
        simp [Outcome.raisedHere] at hown
      · by_cases h3 : h.compare res (args.getD start .absent) = true
        · simp only [h1, h2, h3, if_true, if_false] at hown
          rw [liftEval_not_raisedHere] at hown
          simp at hown
        · simp only [h1, h2, h3, if_true, if_false] at hown
          have hrec := ih (args.length - (start + 2)) (by omega) (start + 2) rfl (by omega) hown
          refine ⟨by omega, fun j hj hsj hlt => ?_⟩
          by_cases hjs : j = start
          · subst hjs
            simpa using h3
          · exact hrec.2 j (by omega) (by omega) hlt
    · refine ⟨by omega, fun j _ hsj hlt => ?_⟩
      omega

/-- The trailing default of `Case`, for any host: with an even number of
forms, at least four, a subject that evaluates to `v` and no matching key,
`Case` returns the last form itself, without evaluating it. -/
theorem Case_trailing_default_literal (h : Host σ) (scope s1 : σ) (args : List Value)
    (v : Value) (hlen : 4 ≤ args.length) (heven : args.length % 2 = 0)
    (hsubj : h.eval scope (args.getD 0 .absent) = (.ok v, s1))
    (hno : ∀ j, j % 2 = 1 → j + 1 < args.length →
      h.compare v (args.getD j .absent) = false) :
    Case h scope args = (.value (args.getD (args.length - 1) .absent), s1) := by
  rw [Case_eq_caseLoop h scope s1 args v (by omega) hsubj]
  exact caseLoop_leftover h s1 args v (args.length / 2 - 1) 1 (by omega)
    (fun j hj _ hlt => hno j (by omega) hlt)

/-- C2. `Case`, trailing default, at the call
`case(5, 1, "a", 2, "b", x)` with `x` bound to `7`: the default form `x`
evaluates to `7` and the two-argument call `case(5, x)` returns `7`, but the
six-argument call returns the symbol `x` itself. -/
theorem Case_trailing_default_not_evaluated :
    demoEval [("x", .int64 7)] (.symbol "x") = (.ok (.int64 7), [("x", .int64 7)]) ∧
    Case demoHost [("x", .int64 7)] [.int64 5, .symbol "x"] =
      (.value (.int64 7), [("x", .int64 7)]) ∧
    Case demoHost [("x", .int64 7)]
        [.int64 5, .int64 1, .string "a", .int64 2, .string "b", .symbol "x"] =
      (.value (.symbol "x"), [("x", .int64 7)]) := by
  refine ⟨rfl, rfl, ?_⟩
  refine Case_trailing_default_literal demoHost [("x", .int64 7)] [("x", .int64 7)]
    [.int64 5, .int64 1, .string "a", .int64 2, .string "b", .symbol "x"] (.int64 5)
    (by decide) (by decide) rfl ?_
  intro j hj hlt
  have hlt5 : j < 5 := by
    simp only [List.length_cons, List.length_nil] at hlt
    omega
  interval_cases j
  · simp at hj
  · rfl
  · simp at hj
  · rfl
  · simp at hj

/-- C3. `Case` raises an error of its own exactly when it should: when the
subject, if there is one, evaluates to `v`, `Case` ends in an error that
does not come from the evaluator if and only if there are fewer than two
forms, or an odd number of forms, at least three, none of whose keys
`args[1], args[3], ...` compares equal to `v`.  In the second case the
message is "no matching clause for" followed by the rendering of `v`
between single quotes; in the first case nothing is evaluated. -/
theorem Case_own_error_iff (h : Host σ) (scope s1 : σ) (args : List Value) (v : Value)
    (hsubj : args ≠ [] → h.eval scope (args.getD 0 .absent) = (.ok v, s1)) :
    ((Case h scope args).1.raisedHere = true ↔
      (args.length < 2 ∨
        (args.length % 2 = 1 ∧ 3 ≤ args.length ∧
          ∀ j, j % 2 = 1 → j < args.length →
            h.compare v (args.getD j .absent) = false))) ∧
    (args.length % 2 = 1 → 3 ≤ args.length →
      (∀ j, j % 2 = 1 → j < args.length → h.compare v (args.getD j .absent) = false) →
      Case h scope args =
        (.error (.errorsNew ("no matching clause for '" ++ fmtS h v ++ "'")), s1)) ∧
    (args.length < 2 →
      Case h scope args = (.error (.errorsNew "case requires at-least 2 args"), scope) ∧
      (Case (traced h) (scope, []) args).2.2 = []) := by
  have hsecond : args.length % 2 = 1 → 3 ≤ args.length →
      (∀ j, j % 2 = 1 → j < args.length → h.compare v (args.getD j .absent) = false) →
      Case h scope args =
        (.error (.errorsNew ("no matching clause for '" ++ fmtS h v ++ "'")), s1) := by
    intro hodd hlen hno
    have hne : args ≠ [] := by
      intro h0; rw [h0] at hlen; simp at hlen
    rw [Case_eq_caseLoop h scope s1 args v hlen (hsubj hne)]
    exact caseLoop_exhausted h s1 args v (args.length / 2) 1 (by omega)
      (fun j hj _ hlt => hno j (by omega) hlt)
  have hfirst : ∀ {τ : Type} (g : Host τ) (t : τ), args.length < 2 →
      Case g t args = (.error (.errorsNew "case requires at-least 2 args"), t) := by
    intro τ g t hlt
    simp only [Case, hlt, if_true]
  refine ⟨⟨fun hown => ?_, fun hcase => ?_⟩, hsecond, fun hlt => ⟨hfirst h scope hlt, ?_⟩⟩
  · by_cases h1 : args.length < 2
    · exact Or.inl h1
    · right
      have hne : args ≠ [] := by
        intro h0; rw [h0] at h1; simp at h1
      by_cases h2 : args.length = 2
      · exfalso
        simp only [Case, h2, Nat.lt_irrefl, if_false, if_true, hsubj hne] at hown
        rw [liftEval_not_raisedHere] at hown
        simp at hown
      · have hlen : 3 ≤ args.length := by omega
        rw [Case_eq_caseLoop h scope s1 args v hlen (hsubj hne)] at hown
        have hrec := caseLoop_raisedHere h s1 args v (args.length - 1) 1 rfl (by omega) hown
        exact ⟨by omega, hlen, fun j hj hlt => hrec.2 j (by omega) (by omega) hlt⟩
  · rcases hcase with hlt | ⟨hodd, hlen, hno⟩
    · rw [hfirst h scope hlt]; rfl
    · rw [hsecond hodd hlen hno]; rfl
  · rw [hfirst (traced h) (scope, []) hlt]

/-- C3, the example of the spec: `case(5, 1, "a", 2, "b")` has no default
form and ends in the "no matching clause" error. -/
theorem Case_own_error_iff_witness :
    Case demoHost [] [.int64 5, .int64 1, .string "a", .int64 2, .string "b"] =
      (.error (.errorsNew "no matching clause for '5'"), []) :=
  (Case_own_error_iff demoHost [] [] [.int64 5, .int64 1, .string "a", .int64 2, .string "b"]
    (.int64 5) (fun _ => rfl)).2.1 (by decide) (by decide)
    (by
      intro j hj hlt
      have hlt : j < 5 := by simpa using hlt
      interval_cases j
      · simp at hj
      · rfl
      · simp at hj
      · rfl
      · simp at hj)

/-! ## `Realize`: theorems -/

/-- The loop of `Realize` appends the pulled elements to what it has built,
as soon as the fuel exceeds their number. -/
theorem realizeLoop_pulls (h : Host σ) (seq : Option Value) (es : List Value)
    (hp : Pulls h seq es) :
    ∀ (fuel : Nat) (vals : List Value), es.length < fuel →
      realizeLoop h fuel seq vals = some (vals ++ es) := by
  induction hp with
  | nilSeq =>
    intro fuel vals hf
    cases fuel with
    | zero => simp at hf
    | succ n => simp [realizeLoop]
  | nilFirst seq hfirst =>
    intro fuel vals hf
    cases fuel with
    | zero => simp at hf
    | succ n => simp [realizeLoop, hfirst]
  | step seq es hne _ ih =>
    intro fuel vals hf
    cases fuel with
    | zero => simp at hf
    | succ n =>
      have hn : es.length < n := by
        simp only [List.length_cons] at hf
        omega
      rw [realizeLoop]
      split
      · rename_i heq
        exact absurd heq hne
      · rw [ih n _ hn, List.append_assoc]
        rfl

/-- The list returned by `Realize` on a sequence that pulls to `es`. -/
theorem Realize_of_pulls (h : Host σ) (seq : Option Value) (es : List Value)
    (fuel : Nat) (hp : Pulls h seq es) (hf : es.length < fuel) :
    Realize h fuel seq = some es := by
  simpa [Realize] using realizeLoop_pulls h seq es hp fuel [] hf

/-- C4. `Realize` equals pulling to exhaustion: when the `First`/`Next`
chain from `seq` yields the non-nil elements `es` and then ends (in a nil
`Next` or a nil `First`), `Realize` returns, with any fuel above the number
of elements, the list holding exactly `es`, in this order; on the nil
sequence and on a sequence whose `First` is nil it returns the empty list. -/
theorem Realize_eq_pulled (h : Host σ) (seq : Option Value) (es : List Value)
    (fuel : Nat) (hp : Pulls h seq es) (hf : es.length < fuel) :
    Realize h fuel seq = some es ∧
    Realize h fuel none = some [] ∧
    ∀ s, h.first s = .absent → Realize h fuel (some s) = some [] := by
  have h0 : ([] : List Value).length < fuel := by
    simp only [List.length_nil]
    omega
  refine ⟨?_, ?_, fun s hs => ?_⟩
  · exact Realize_of_pulls h seq es fuel hp hf
  · exact Realize_of_pulls h none [] fuel Pulls.nilSeq h0
  · exact Realize_of_pulls h (some s) [] fuel (Pulls.nilFirst s hs) h0

/-- The list `(1 2 3)` of the concrete host pulls to `1, 2, 3`. -/
theorem pulls_demo_123 :
    Pulls demoHost (some (.list [.int64 1, .int64 2, .int64 3]))
      [.int64 1, .int64 2, .int64 3] :=
  Pulls.step (.list [.int64 1, .int64 2, .int64 3]) [.int64 2, .int64 3]
    (fun hc => Value.noConfusion hc)
    (Pulls.step (.list [.int64 2, .int64 3]) [.int64 3] (fun hc => Value.noConfusion hc)
      (Pulls.step (.list [.int64 3]) [] (fun hc => Value.noConfusion hc) Pulls.nilSeq))

/-- C4 at the list `(1 2 3)` of the concrete host. -/
theorem Realize_eq_pulled_witness :
    Realize demoHost 4 (some (.list [.int64 1, .int64 2, .int64 3])) =
      some [.int64 1, .int64 2, .int64 3] :=
  (Realize_eq_pulled demoHost (some (.list [.int64 1, .int64 2, .int64 3]))
    [.int64 1, .int64 2, .int64 3] 4 pulls_demo_123 (by decide)).1

/-! ## `slangMap` and `filter`: theorems -/

/-- The two leading forms of `slangMap` evaluated and the sequence realized,
what is left is the loop. -/
theorem slangMap_eq_mapLoop (h : Host σ) (fuel : Nat) (scope s1 s2 : σ) (args : List Value)
    (fn sv : Value) (es : List Value) (hlen : 2 ≤ args.length)
    (hfn : h.eval scope (args.getD 0 .absent) = (.ok fn, s1))
    (hseq : h.eval s1 (args.getD 1 .absent) = (.ok sv, s2))
    (hisSeq : h.isSeq sv = true) (hp : Pulls h (some sv) es) (hf : es.length < fuel) :
    slangMap h fuel scope args = some (mapLoop h fn es [] s2) := by
  have h1 : ¬ (args.length < 2) := by omega
  simp only [slangMap, h1, if_false, hfn, hseq, hisSeq, if_true,
    Realize_of_pulls h (some sv) es fuel hp hf]

/-- The two leading forms of `filter` evaluated and the sequence realized,
what is left is the loop. -/
theorem filter_eq_filterLoop (h : Host σ) (fuel : Nat) (scope s1 s2 : σ) (args : List Value)
    (fn sv : Value) (es : List Value) (hlen : 2 ≤ args.length)
    (hfn : h.eval scope (args.getD 0 .absent) = (.ok fn, s1))
    (hseq : h.eval s1 (args.getD 1 .absent) = (.ok sv, s2))
    (hisSeq : h.isSeq sv = true) (hp : Pulls h (some sv) es) (hf : es.length < fuel) :
    filter h fuel scope args = some (filterLoop h fn es [] s2) := by
  have h1 : ¬ (args.length < 2) := by omega
  simp only [filter, h1, if_false, hfn, hseq, hisSeq, if_true,
    Realize_of_pulls h (some sv) es fuel hp hf]

/-- The loop of `slangMap` appends the results of the invocations. -/
theorem mapLoop_invokeEach (h : Host σ) (fn : Value) (hinv : h.invokable fn = true)
    (s s1 : σ) (es rs : List Value) (hall : InvokeEach h fn s es rs s1) :
    ∀ acc, mapLoop h fn es acc s = (.value (.list (acc ++ rs)), s1) := by
  induction hall with
  | nil s => intro acc; simp [mapLoop]
  | cons s s1 s2 e r es rs hcall _ ih =>
    intro acc
    simp only [mapLoop, hinv, if_true, hcall]
    rw [ih, List.append_assoc]
    rfl

/-- The loop of `filter` appends the elements whose result is truthy. -/
theorem filterLoop_invokeEach (h : Host σ) (fn : Value) (hinv : h.invokable fn = true)
    (s s1 : σ) (es rs : List Value) (hall : InvokeEach h fn s es rs s1) :
    ∀ acc, filterLoop h fn es acc s = (.value (.list (acc ++ keptBy es rs)), s1) := by
  induction hall with
  | nil s => intro acc; simp [filterLoop, keptBy]
  | cons s s1 s2 e r es rs hcall _ ih =>
    intro acc
    simp only [filterLoop, hinv, if_true, hcall]
    cases ht : isTruthy r with
    | true =>
      simp only [if_true]
      rw [ih, List.append_assoc]
      simp [keptBy, ht]
    | false =>
      simp only [Bool.false_eq_true, if_false]
      rw [ih]
      simp [keptBy, ht]

/-- Successful element-wise invocation returns one result per element. -/
theorem InvokeEach.length_eq {h : Host σ} {fn : Value} {s s1 : σ} {es rs : List Value}
    (hall : InvokeEach h fn s es rs s1) : rs.length = es.length := by
  induction hall with
  | nil s => rfl
  | cons s s1 s2 e r es rs _ _ ih => simp [ih]

/-- In a successful element-wise invocation the result at each position is
what `fn` returned on the element at that position. -/
theorem InvokeEach.pointwise {h : Host σ} {fn : Value} {s s1 : σ} {es rs : List Value}
    (hall : InvokeEach h fn s es rs s1) :
    ∀ i, i < es.length →
      ∃ t t1, h.invoke t fn [es.getD i .absent] = (.ok (rs.getD i .absent), t1) := by
  induction hall with
  | nil s => intro i hi; simp at hi
  | cons s s1 s2 e r es rs hcall _ ih =>
    intro i hi
    cases i with
    | zero => exact ⟨s, s1, by simpa using hcall⟩
    | succ i =>
      have hi2 : i < es.length := by simpa using hi
      simpa using ih i hi2

/-- When `fn` hands back its argument and leaves the scope alone, the
results of an element-wise invocation are the elements themselves. -/
theorem InvokeEach.of_identity {h : Host σ} {fn : Value} {s s1 : σ} {es rs : List Value}
    (hall : InvokeEach h fn s es rs s1) (hid : ∀ t e, h.invoke t fn [e] = (.ok e, t)) :
    rs = es ∧ s1 = s := by
  induction hall with
  | nil s => exact ⟨rfl, rfl⟩
  | cons s s1 s2 e r es rs hcall _ ih =>
    rw [hid s e] at hcall
    injection hcall with hr hs
    injection hr with hr
    subst hr
    subst hs
    exact ⟨by rw [ih.1], ih.2⟩

/-- C5. The built-in `map` is element-wise and order-preserving: when the
function form evaluates to an invokable `fn`, the sequence form to a
sequence that pulls to `es` (which is what `Realize` returns), and the
invocations of `fn` on the elements of `es`, from left to right, succeed
with results `rs`, then `slangMap` returns the list `rs`; it has the length
of `es` and its `i`-th element is what `fn` returned on the `i`-th element
of `es`.  In particular, for an `fn` that hands back its argument, the
result is `es` itself. -/
theorem slangMap_elementwise (h : Host σ) (fuel : Nat) (scope s1 s2 s3 : σ)
    (args : List Value) (fn sv : Value) (es rs : List Value) (hlen : 2 ≤ args.length)
    (hfn : h.eval scope (args.getD 0 .absent) = (.ok fn, s1))
    (hseq : h.eval s1 (args.getD 1 .absent) = (.ok sv, s2))
    (hinv : h.invokable fn = true) (hisSeq : h.isSeq sv = true)
    (hp : Pulls h (some sv) es) (hf : es.length < fuel)
    (hall : InvokeEach h fn s2 es rs s3) :
    Realize h fuel (some sv) = some es ∧
    slangMap h fuel scope args = some (.value (.list rs), s3) ∧
    rs.length = es.length ∧
    (∀ i, i < es.length →
      ∃ t t1, h.invoke t fn [es.getD i .absent] = (.ok (rs.getD i .absent), t1)) ∧
    ((∀ t e, h.invoke t fn [e] = (.ok e, t)) →
      slangMap h fuel scope args = some (.value (.list es), s2)) := by
  have hmap : slangMap h fuel scope args = some (.value (.list rs), s3) := by
    rw [slangMap_eq_mapLoop h fuel scope s1 s2 args fn sv es hlen hfn hseq hisSeq hp hf,
      mapLoop_invokeEach h fn hinv s2 s3 es rs hall []]
    rfl
  refine ⟨Realize_of_pulls h (some sv) es fuel hp hf, hmap, hall.length_eq,
    hall.pointwise, fun hid => ?_⟩
  rw [hmap, (hall.of_identity hid).1, (hall.of_identity hid).2]

/-- The identity of the concrete host succeeds on `1, 2, 3` and leaves the
scope alone. -/
theorem invokeEach_demo_identity :
    InvokeEach demoHost (.fn 1) [("id", .fn 1)] [.int64 1, .int64 2, .int64 3]
      [.int64 1, .int64 2, .int64 3] [("id", .fn 1)] :=
  InvokeEach.cons _ _ _ _ _ _ _ rfl
    (InvokeEach.cons _ _ _ _ _ _ _ rfl
      (InvokeEach.cons _ _ _ _ _ _ _ rfl (InvokeEach.nil _)))

/-- C5 at `map(id, (1 2 3))` in the concrete host, `id` bound to the
identity. -/
theorem slangMap_elementwise_witness :
    slangMap demoHost 4 [("id", .fn 1)] [.symbol "id", .list [.int64 1, .int64 2, .int64 3]] =
      some (.value (.list [.int64 1, .int64 2, .int64 3]), [("id", .fn 1)]) :=
  (slangMap_elementwise demoHost 4 [("id", .fn 1)] [("id", .fn 1)] [("id", .fn 1)]
    [("id", .fn 1)] [.symbol "id", .list [.int64 1, .int64 2, .int64 3]] (.fn 1)
    (.list [.int64 1, .int64 2, .int64 3]) [.int64 1, .int64 2, .int64 3]
    [.int64 1, .int64 2, .int64 3] (by decide) rfl rfl rfl rfl pulls_demo_123 (by decide)
    invokeEach_demo_identity).2.1

/-- The kept elements are a sub-list of the elements, in their order. -/
theorem keptBy_sublist : ∀ (es rs : List Value), (keptBy es rs).Sublist es
  | [], _ => by simp [keptBy]
  | _ :: _, [] => by simp [keptBy]
  | e :: es, r :: rs => by
    have ih : (keptBy es rs).Sublist es := keptBy_sublist es rs
    cases ht : isTruthy r with
    | true =>
      have hk : keptBy (e :: es) (r :: rs) = e :: keptBy es rs := by simp [keptBy, ht]
      rw [hk]
      exact ih.cons₂ e
    | false =>
      have hk : keptBy (e :: es) (r :: rs) = keptBy es rs := by simp [keptBy, ht]
      rw [hk]
      exact ih.cons e

/-- When every result is truthy, every element is kept. -/
theorem keptBy_all : ∀ (es rs : List Value), rs.length = es.length →
    (∀ r, r ∈ rs → isTruthy r = true) → keptBy es rs = es
  | [], _, _, _ => by simp [keptBy]
  | _ :: _, [], hl, _ => by simp at hl
  | e :: es, r :: rs, hl, hall => by
    have ht : isTruthy r = true := hall r (List.mem_cons_self r rs)
    have ih : keptBy es rs = es :=
      keptBy_all es rs (by simpa using hl) (fun x hx => hall x (List.mem_cons_of_mem r hx))
    have hk : keptBy (e :: es) (r :: rs) = e :: keptBy es rs := by simp [keptBy, ht]
    rw [hk, ih]

/-- When no result is truthy, no element is kept. -/
theorem keptBy_none : ∀ (es rs : List Value),
    (∀ r, r ∈ rs → isTruthy r = false) → keptBy es rs = []
  | [], _, _ => by simp [keptBy]
  | _ :: _, [], _ => by simp [keptBy]
  | e :: es, r :: rs, hall => by
    have ht : isTruthy r = false := hall r (List.mem_cons_self r rs)
    have ih : keptBy es rs = [] :=
      keptBy_none es rs (fun x hx => hall x (List.mem_cons_of_mem r hx))
    have hk : keptBy (e :: es) (r :: rs) = keptBy es rs := by simp [keptBy, ht]
    rw [hk, ih]

/-- The falsy values are nil, `sabre.Nil{}` and the boolean false. -/
theorem isTruthy_eq_false_iff (v : Value) :
    isTruthy v = false ↔ v = .absent ∨ v = .nil ∨ v = .bool false := by
  cases v <;> simp [isTruthy]

/-- C6. The built-in `filter` keeps exactly the elements with a truthy
predicate result: when the function form evaluates to an invokable `fn`,
the sequence form to a sequence that pulls to `es` (which is what `Realize`
returns), and the invocations of `fn` on the elements of `es`, from left
to right, succeed with results `rs`, then `filter` returns the list of
those elements of `es`, unmodified and in their order, whose result is
truthy.  A value is falsy iff it is nil, `sabre.Nil{}` or the boolean false;
zero, the empty string and the empty collections are truthy.  If every
result is truthy the list is `es`, if none is it is empty. -/
theorem filter_keeps_truthy (h : Host σ) (fuel : Nat) (scope s1 s2 s3 : σ)
    (args : List Value) (fn sv : Value) (es rs : List Value) (hlen : 2 ≤ args.length)
    (hfn : h.eval scope (args.getD 0 .absent) = (.ok fn, s1))
    (hseq : h.eval s1 (args.getD 1 .absent) = (.ok sv, s2))
    (hinv : h.invokable fn = true) (hisSeq : h.isSeq sv = true)
    (hp : Pulls h (some sv) es) (hf : es.length < fuel)
    (hall : InvokeEach h fn s2 es rs s3) :
    Realize h fuel (some sv) = some es ∧
    filter h fuel scope args = some (.value (.list (keptBy es rs)), s3) ∧
    (keptBy es rs).Sublist es ∧
    (∀ v, isTruthy v = false ↔ v = .absent ∨ v = .nil ∨ v = .bool false) ∧
    (isTruthy (.int64 0) = true ∧ isTruthy (.string "") = true ∧
      isTruthy (.list []) = true ∧ isTruthy (.vector []) = true) ∧
    ((∀ r, r ∈ rs → isTruthy r = true) →
      filter h fuel scope args = some (.value (.list es), s3)) ∧
    ((∀ r, r ∈ rs → isTruthy r = false) →
      filter h fuel scope args = some (.value (.list []), s3)) := by
  have hfil : filter h fuel scope args = some (.value (.list (keptBy es rs)), s3) := by
    rw [filter_eq_filterLoop h fuel scope s1 s2 args fn sv es hlen hfn hseq hisSeq hp hf,
      filterLoop_invokeEach h fn hinv s2 s3 es rs hall []]
    rfl
  refine ⟨Realize_of_pulls h (some sv) es fuel hp hf, hfil, keptBy_sublist es rs,
    isTruthy_eq_false_iff, ⟨rfl, rfl, rfl, rfl⟩, fun ht => ?_, fun ht => ?_⟩
  · rw [hfil, keptBy_all es rs hall.length_eq ht]
  · rw [hfil, keptBy_none es rs ht]

/-- The identity of the concrete host, used as a predicate, answers
`0, nil, false, ""` on the elements `0, nil, false, ""`. -/
theorem invokeEach_demo_mixed :
    InvokeEach demoHost (.fn 1) [("id", .fn 1)]
      [.int64 0, .nil, .bool false, .string ""]
      [.int64 0, .nil, .bool false, .string ""] [("id", .fn 1)] :=
  InvokeEach.cons _ _ _ _ _ _ _ rfl
    (InvokeEach.cons _ _ _ _ _ _ _ rfl
      (InvokeEach.cons _ _ _ _ _ _ _ rfl
        (InvokeEach.cons _ _ _ _ _ _ _ rfl (InvokeEach.nil _))))

/-- The list `(0 nil false "")` of the concrete host pulls to its four
elements. -/
theorem pulls_demo_mixed :
    Pulls demoHost (some (.list [.int64 0, .nil, .bool false, .string ""]))
      [.int64 0, .nil, .bool false, .string ""] :=
  Pulls.step (.list [.int64 0, .nil, .bool false, .string ""])
    [.nil, .bool false, .string ""] (fun hc => Value.noConfusion hc)
    (Pulls.step (.list [.nil, .bool false, .string ""]) [.bool false, .string ""]
      (fun hc => Value.noConfusion hc)
      (Pulls.step (.list [.bool false, .string ""]) [.string ""]
        (fun hc => Value.noConfusion hc)
        (Pulls.step (.list [.string ""]) [] (fun hc => Value.noConfusion hc) Pulls.nilSeq)))

/-- C6 at `filter(id, (0 nil false ""))` in the concrete host: zero and
the empty string are kept, `nil` and `false` are dropped. -/
theorem filter_keeps_truthy_witness :
    filter demoHost 5 [("id", .fn 1)]
        [.symbol "id", .list [.int64 0, .nil, .bool false, .string ""]] =
      some (.value (.list [.int64 0, .string ""]), [("id", .fn 1)]) :=
  (filter_keeps_truthy demoHost 5 [("id", .fn 1)] [("id", .fn 1)] [("id", .fn 1)]
    [("id", .fn 1)] [.symbol "id", .list [.int64 0, .nil, .bool false, .string ""]] (.fn 1)
    (.list [.int64 0, .nil, .bool false, .string ""])
    [.int64 0, .nil, .bool false, .string ""] [.int64 0, .nil, .bool false, .string ""]
    (by decide) rfl rfl rfl rfl pulls_demo_mixed (by decide) invokeEach_demo_mixed).2.1

/-! ## `reduce`: theorems -/

/-- Once a step of the fold has failed, the error and the scope stay. -/
theorem foldl_foldStep_error (h : Host σ) (fn : Value) (x : HostError) (s : σ) :
    ∀ es : List Value, es.foldl (foldStep h fn) (.error x, s) = (.error x, s)
  | [] => rfl
  | _ :: es => by
    rw [List.foldl_cons]
    exact foldl_foldStep_error h fn x s es

/-- The loop of `reduce` is the left fold of `fn(acc, e)` through the host. -/
theorem reduceLoop_eq_foldl (h : Host σ) (fn : Value) (hinv : h.invokable fn = true) :
    ∀ (es : List Value) (acc : Value) (s : σ),
      reduceLoop h fn es acc s = liftEval (es.foldl (foldStep h fn) (.ok acc, s))
  | [], _, _ => rfl
  | e :: es, acc, s => by
    rw [List.foldl_cons]
    simp only [reduceLoop, hinv, if_true, foldStep]
    rcases hcall : h.invoke s fn [acc, e] with ⟨r | r, s1⟩
    · simp only [foldl_foldStep_error]
      rfl
    · simp only []
      exact reduceLoop_eq_foldl h fn hinv es r s1

/-- For an `fn` that computes `f` and leaves the scope alone, the fold
through the host is the plain left fold of `f`. -/
theorem foldl_foldStep_pure (h : Host σ) (fn : Value) (f : Value → Value → Value)
    (hpure : ∀ t a e, h.invoke t fn [a, e] = (.ok (f a e), t)) (s : σ) :
    ∀ (es : List Value) (a0 : Value),
      es.foldl (foldStep h fn) (.ok a0, s) = (.ok (es.foldl f a0), s)
  | [], _ => rfl
  | e :: es, a0 => by
    rw [List.foldl_cons, List.foldl_cons]
    simp only [foldStep, hpure]
    exact foldl_foldStep_pure h fn f hpure s es (f a0 e)

/-- A host result returned as it is is never a panic. -/
theorem liftEval_ne_fault (r : Except HostError Value × σ) (p : Fault) (s : σ) :
    liftEval r ≠ (.fault p, s) := by
  rcases r with ⟨r | r, t⟩ <;> simp [liftEval]

/-- With three forms, `reduce` evaluates the seed form after the list and
folds over the whole list. -/
theorem reduce_seed_ok (h : Host σ) (fuel : Nat) (scope s1 s2 s3 : σ) (args : List Value)
    (fn sv seed : Value) (es : List Value) (h3 : args.length = 3)
    (hfn : h.eval scope (args.getD 0 .absent) = (.ok fn, s1))
    (hseq : h.eval s1 (args.getD 2 .absent) = (.ok sv, s2))
    (hisSeq : h.isSeq sv = true) (hp : Pulls h (some sv) es) (hf : es.length < fuel)
    (hseed : h.eval s2 (args.getD 1 .absent) = (.ok seed, s3)) :
    reduce h fuel scope args = some (reduceLoop h fn es seed s3) := by
  simp only [reduce, h3, if_true, hfn, hseq, hisSeq, hseed,
    Realize_of_pulls h (some sv) es fuel hp hf]
  simp

/-- With three forms, an error of the seed form is returned. -/
theorem reduce_seed_error (h : Host σ) (fuel : Nat) (scope s1 s2 s3 : σ) (args : List Value)
    (fn sv : Value) (x : HostError) (es : List Value) (h3 : args.length = 3)
    (hfn : h.eval scope (args.getD 0 .absent) = (.ok fn, s1))
    (hseq : h.eval s1 (args.getD 2 .absent) = (.ok sv, s2))
    (hisSeq : h.isSeq sv = true) (hp : Pulls h (some sv) es) (hf : es.length < fuel)
    (hseed : h.eval s2 (args.getD 1 .absent) = (.error x, s3)) :
    reduce h fuel scope args = some (.error (.host x), s3) := by
  simp only [reduce, h3, if_true, hfn, hseq, hisSeq, hseed,
    Realize_of_pulls h (some sv) es fuel hp hf]
  simp

/-- Without a seed and with an empty realized list, `list.Values[0]` is out
of range. -/
theorem reduce_noseed_nil (h : Host σ) (fuel : Nat) (scope s1 s2 : σ) (args : List Value)
    (fn sv : Value) (hlen : 2 ≤ args.length) (h3 : args.length ≠ 3)
    (hfn : h.eval scope (args.getD 0 .absent) = (.ok fn, s1))
    (hseq : h.eval s1 (args.getD 1 .absent) = (.ok sv, s2))
    (hisSeq : h.isSeq sv = true) (hp : Pulls h (some sv) []) (hf : 0 < fuel) :
    reduce h fuel scope args = some (.fault (.indexOutOfRange 0 0), s2) := by
  have h1 : ¬ (args.length < 2) := by omega
  simp only [reduce, h1, h3, if_false, hfn, hseq, hisSeq, if_true,
    Realize_of_pulls h (some sv) [] fuel hp hf]

/-- Without a seed, the first element of the realized list is the initial
value and the fold runs over the rest. -/
theorem reduce_noseed_cons (h : Host σ) (fuel : Nat) (scope s1 s2 : σ) (args : List Value)
    (fn sv e1 : Value) (rest : List Value) (hlen : 2 ≤ args.length) (h3 : args.length ≠ 3)
    (hfn : h.eval scope (args.getD 0 .absent) = (.ok fn, s1))
    (hseq : h.eval s1 (args.getD 1 .absent) = (.ok sv, s2))
    (hisSeq : h.isSeq sv = true) (hp : Pulls h (some sv) (e1 :: rest))
    (hf : (e1 :: rest).length < fuel) :
    reduce h fuel scope args = some (reduceLoop h fn rest e1 s2) := by
  have h1 : ¬ (args.length < 2) := by omega
  simp only [reduce, h1, h3, if_false, hfn, hseq, hisSeq, if_true,
    Realize_of_pulls h (some sv) (e1 :: rest) fuel hp hf]

/-- C7. The built-in `reduce` is a strict left fold in both call shapes:
when the function form evaluates to an invokable `fn` and the collection
form to a sequence that pulls to `es`, then with three forms and a seed
form evaluating to `seed` the result is the left fold of `fn(acc, e)` over
`es` from `seed`, and with another number of forms and `es = e1 :: rest`
it is the left fold of `fn(acc, e)` over `rest` from `e1`; `fn` is invoked
on the pair accumulator, element.  For an `fn` that computes `f` the fold
through the host is the plain `foldl f`. -/
theorem reduce_left_fold (h : Host σ) (fuel : Nat) (scope s1 s2 : σ) (args : List Value)
    (fn sv : Value) (es : List Value) (hlen : 2 ≤ args.length)
    (hfn : h.eval scope (args.getD 0 .absent) = (.ok fn, s1))
    (hinv : h.invokable fn = true)
    (hseq : h.eval s1 (args.getD (if args.length = 3 then 2 else 1) .absent) = (.ok sv, s2))
    (hisSeq : h.isSeq sv = true) (hp : Pulls h (some sv) es) (hf : es.length < fuel) :
    (∀ seed s3, args.length = 3 → h.eval s2 (args.getD 1 .absent) = (.ok seed, s3) →
      reduce h fuel scope args =
        some (liftEval (es.foldl (foldStep h fn) (.ok seed, s3)))) ∧
    (∀ e1 rest, args.length ≠ 3 → es = e1 :: rest →
      reduce h fuel scope args =
        some (liftEval (rest.foldl (foldStep h fn) (.ok e1, s2)))) ∧
    (∀ (f : Value → Value → Value), (∀ t a e, h.invoke t fn [a, e] = (.ok (f a e), t)) →
      ∀ (l : List Value) (a0 : Value) (s : σ),
        liftEval (l.foldl (foldStep h fn) (.ok a0, s)) = (.value (l.foldl f a0), s)) := by
  refine ⟨fun seed s3 h3 hseed => ?_, fun e1 rest h3 hes => ?_, fun f hpure l a0 s => ?_⟩
  · simp only [h3, if_true] at hseq
    rw [reduce_seed_ok h fuel scope s1 s2 s3 args fn sv seed es h3 hfn hseq hisSeq hp hf hseed,
      reduceLoop_eq_foldl h fn hinv]
  · simp only [h3, if_false] at hseq
    subst hes
    rw [reduce_noseed_cons h fuel scope s1 s2 args fn sv e1 rest hlen h3 hfn hseq hisSeq hp hf,
      reduceLoop_eq_foldl h fn hinv]
  · rw [foldl_foldStep_pure h fn f hpure s l a0]
    rfl

/-- C7, the examples of the spec: `reduce(+, 0, (1 2 3))` is `6` and
`reduce(+, (1 2 3))` is `6`, in the concrete host with `+` bound to the
addition. -/
theorem reduce_left_fold_witness :
    reduce demoHost 4 [("+", .fn 0)]
        [.symbol "+", .int64 0, .list [.int64 1, .int64 2, .int64 3]] =
      some (.value (.int64 6), [("+", .fn 0)]) ∧
    reduce demoHost 4 [("+", .fn 0)] [.symbol "+", .list [.int64 1, .int64 2, .int64 3]] =
      some (.value (.int64 6), [("+", .fn 0)]) :=
  ⟨(reduce_left_fold demoHost 4 [("+", .fn 0)] [("+", .fn 0)] [("+", .fn 0)]
      [.symbol "+", .int64 0, .list [.int64 1, .int64 2, .int64 3]] (.fn 0)
      (.list [.int64 1, .int64 2, .int64 3]) [.int64 1, .int64 2, .int64 3]
      (by decide) rfl rfl rfl rfl pulls_demo_123 (by decide)).1 (.int64 0) [("+", .fn 0)]
      rfl rfl,
   (reduce_left_fold demoHost 4 [("+", .fn 0)] [("+", .fn 0)] [("+", .fn 0)]
      [.symbol "+", .list [.int64 1, .int64 2, .int64 3]] (.fn 0)
      (.list [.int64 1, .int64 2, .int64 3]) [.int64 1, .int64 2, .int64 3]
      (by decide) rfl rfl rfl rfl pulls_demo_123 (by decide)).2.1 (.int64 1)
      [.int64 2, .int64 3] (by decide) rfl⟩

/-- The traced host has the sequences of the host it traces. -/
theorem Pulls.traced {h : Host σ} {seq : Option Value} {es : List Value}
    (hp : Pulls h seq es) : Pulls (traced h) seq es := by
  induction hp with
  | nilSeq => exact Pulls.nilSeq
  | nilFirst seq hfirst => exact Pulls.nilFirst seq hfirst
  | step seq es hne _ ih => exact Pulls.step (h := Slang.traced h) seq es hne ih

/-- C8. The unchecked access `list.Values[0]` of `reduce`: when the
function form evaluates to an invokable `fn` and the collection form to a
sequence that pulls to `es`, `reduce` panics if and only if there is no seed
(the number of forms is not three) and `es` is empty, and the panic is then
the index 0 out of range in a list of length 0.  With a seed and an empty
`es` it returns the evaluated seed, and the calls made to the host are the
three evaluations (function, collection, seed) and no invocation. -/
theorem reduce_first_element_access (h : Host σ) (fuel : Nat) (scope s1 s2 : σ)
    (args : List Value) (fn sv : Value) (es : List Value) (hlen : 2 ≤ args.length)
    (hfn : h.eval scope (args.getD 0 .absent) = (.ok fn, s1))
    (hinv : h.invokable fn = true)
    (hseq : h.eval s1 (args.getD (if args.length = 3 then 2 else 1) .absent) = (.ok sv, s2))
    (hisSeq : h.isSeq sv = true) (hp : Pulls h (some sv) es) (hf : es.length < fuel) :
    ((∃ p s, reduce h fuel scope args = some (.fault p, s)) ↔
      (args.length ≠ 3 ∧ es = [])) ∧
    (args.length ≠ 3 → es = [] →
      reduce h fuel scope args = some (.fault (.indexOutOfRange 0 0), s2)) ∧
    (∀ seed s3, args.length = 3 → es = [] →
      h.eval s2 (args.getD 1 .absent) = (.ok seed, s3) →
      reduce h fuel scope args = some (.value seed, s3) ∧
      reduce (traced h) fuel (scope, []) args =
        some (.value seed, (s3, [Event.eval (args.getD 0 .absent),
          Event.eval (args.getD 2 .absent), Event.eval (args.getD 1 .absent)]))) := by
  have hnil : args.length ≠ 3 → es = [] →
      reduce h fuel scope args = some (.fault (.indexOutOfRange 0 0), s2) := by
    intro h3 hes
    subst hes
    simp only [h3, if_false] at hseq
    exact reduce_noseed_nil h fuel scope s1 s2 args fn sv hlen h3 hfn hseq hisSeq hp
      (by omega)
  refine ⟨⟨fun hfault => ?_, fun hcase => ⟨_, _, hnil hcase.1 hcase.2⟩⟩, hnil,
    fun seed s3 h3 hes hseed => ?_⟩
  · obtain ⟨p, s, hfault⟩ := hfault
    by_cases h3 : args.length = 3
    · exfalso
      simp only [h3, if_true] at hseq
      rcases hseed : h.eval s2 (args.getD 1 .absent) with ⟨x | seed, s3⟩
      · rw [reduce_seed_error h fuel scope s1 s2 s3 args fn sv x es h3 hfn hseq hisSeq hp hf
          hseed] at hfault
        simp at hfault
      · rw [reduce_seed_ok h fuel scope s1 s2 s3 args fn sv seed es h3 hfn hseq hisSeq hp hf
          hseed, reduceLoop_eq_foldl h fn hinv] at hfault
        exact liftEval_ne_fault _ p s (Option.some.inj hfault)
    · refine ⟨h3, ?_⟩
      cases es with
      | nil => rfl
      | cons e1 rest =>
        exfalso
        simp only [h3, if_false] at hseq
        rw [reduce_noseed_cons h fuel scope s1 s2 args fn sv e1 rest hlen h3 hfn hseq hisSeq
          hp hf, reduceLoop_eq_foldl h fn hinv] at hfault
        exact liftEval_ne_fault _ p s (Option.some.inj hfault)
  · subst hes
    simp only [h3, if_true] at hseq
    refine ⟨?_, ?_⟩
    · rw [reduce_seed_ok h fuel scope s1 s2 s3 args fn sv seed [] h3 hfn hseq hisSeq hp hf
        hseed]
      rfl
    · have e0 : (traced h).eval (scope, []) (args.getD 0 .absent) =
          (.ok fn, (s1, [Event.eval (args.getD 0 .absent)])) := by
        rw [traced_eval, hfn]; rfl
      have e2 : (traced h).eval (s1, [Event.eval (args.getD 0 .absent)])
          (args.getD 2 .absent) = (.ok sv, (s2, [Event.eval (args.getD 0 .absent),
            Event.eval (args.getD 2 .absent)])) := by
        rw [traced_eval, hseq]; rfl
      have e1 : (traced h).eval (s2, [Event.eval (args.getD 0 .absent),
          Event.eval (args.getD 2 .absent)]) (args.getD 1 .absent) =
          (.ok seed, (s3, [Event.eval (args.getD 0 .absent),
            Event.eval (args.getD 2 .absent), Event.eval (args.getD 1 .absent)])) := by
        rw [traced_eval, hseed]; rfl
      rw [reduce_seed_ok (traced h) fuel (scope, []) _ _ _ args fn sv seed [] h3 e0 e2 hisSeq
        hp.traced hf e1]
      rfl

/-- The empty list of the concrete host pulls to nothing. -/
theorem pulls_demo_empty : Pulls demoHost (some (.list [])) [] :=
  Pulls.nilFirst (.list []) rfl

/-- C8 at `reduce(+, 0, ())` and `reduce(+, ())` in the concrete host: the
seed is returned, and without it the access is out of range. -/
theorem reduce_first_element_access_witness :
    reduce demoHost 1 [("+", .fn 0)] [.symbol "+", .int64 0, .list []] =
      some (.value (.int64 0), [("+", .fn 0)]) ∧
    reduce demoHost 1 [("+", .fn 0)] [.symbol "+", .list []] =
      some (.fault (.indexOutOfRange 0 0), [("+", .fn 0)]) :=
  ⟨((reduce_first_element_access demoHost 1 [("+", .fn 0)] [("+", .fn 0)] [("+", .fn 0)]
      [.symbol "+", .int64 0, .list []] (.fn 0) (.list []) [] (by decide) rfl rfl rfl rfl
      pulls_demo_empty (by decide)).2.2 (.int64 0) [("+", .fn 0)] rfl rfl rfl).1,
   (reduce_first_element_access demoHost 1 [("+", .fn 0)] [("+", .fn 0)] [("+", .fn 0)]
      [.symbol "+", .list []] (.fn 0) (.list []) [] (by decide) rfl rfl rfl rfl
      pulls_demo_empty (by decide)).2.1 (by decide) rfl⟩

/-! ## Argument count and the function designator -/

/-- C9. The argument-count check of the higher-order built-ins: with fewer
than two forms, `slangMap`, `filter` and `reduce` each return the
invalid-argument-count error carrying the expected count 2 and the actual
count (`slangMap` the struct, `filter` and `reduce` a pointer to it), with
any fuel, the scope unchanged and no call made to the host. -/
theorem higher_order_arg_count (h : Host σ) (fuel : Nat) (scope : σ) (args : List Value)
    (hlt : args.length < 2) :
    (slangMap h fuel scope args =
        some (.error (.invalidArgNumberError 2 args.length), scope) ∧
      filter h fuel scope args =
        some (.error (.invalidArgNumberErrorPtr 2 args.length), scope) ∧
      reduce h fuel scope args =
        some (.error (.invalidArgNumberErrorPtr 2 args.length), scope)) ∧
    (slangMap (traced h) fuel (scope, []) args =
        some (.error (.invalidArgNumberError 2 args.length), (scope, [])) ∧
      filter (traced h) fuel (scope, []) args =
        some (.error (.invalidArgNumberErrorPtr 2 args.length), (scope, [])) ∧
      reduce (traced h) fuel (scope, []) args =
        some (.error (.invalidArgNumberErrorPtr 2 args.length), (scope, []))) := by
  simp only [slangMap, filter, reduce, hlt, if_true, and_self]

/-- C9 at the one-form calls `map(id)`, `filter(id)`, `reduce(id)` of the
concrete host. -/
theorem higher_order_arg_count_witness :
    slangMap demoHost 0 [] [.symbol "id"] = some (.error (.invalidArgNumberError 2 1), []) ∧
    filter demoHost 0 [] [.symbol "id"] = some (.error (.invalidArgNumberErrorPtr 2 1), []) ∧
    reduce demoHost 0 [] [.symbol "id"] = some (.error (.invalidArgNumberErrorPtr 2 1), []) :=
  (higher_order_arg_count demoHost 0 [] [.symbol "id"] (by decide)).1

/-- A function designator that is not invokable, for any host: when the
collection is a sequence with at least one element, `slangMap` and `filter`
panic in the type assertion `fn.(sabre.Invokable)` of their first
iteration. -/
theorem map_filter_not_invokable_panic (h : Host σ) (fuel : Nat) (scope s1 s2 : σ)
    (args : List Value) (fn sv e : Value) (es : List Value) (hlen : 2 ≤ args.length)
    (hfn : h.eval scope (args.getD 0 .absent) = (.ok fn, s1))
    (hseq : h.eval s1 (args.getD 1 .absent) = (.ok sv, s2))
    (hninv : h.invokable fn = false) (hisSeq : h.isSeq sv = true)
    (hp : Pulls h (some sv) (e :: es)) (hf : (e :: es).length < fuel) :
    slangMap h fuel scope args =
      some (.fault (.interfaceConversion (h.typeName fn)), s2) ∧
    filter h fuel scope args =
      some (.fault (.interfaceConversion (h.typeName fn)), s2) := by
  rw [slangMap_eq_mapLoop h fuel scope s1 s2 args fn sv (e :: es) hlen hfn hseq hisSeq hp hf,
    filter_eq_filterLoop h fuel scope s1 s2 args fn sv (e :: es) hlen hfn hseq hisSeq hp hf]
  simp [mapLoop, filterLoop, hninv]

/-- The one-element list `(1)` of the concrete host. -/
theorem pulls_demo_1 : Pulls demoHost (some (.list [.int64 1])) [.int64 1] :=
  Pulls.step (.list [.int64 1]) [] (fun hc => Value.noConfusion hc) Pulls.nilSeq

/-- C10. A function designator that is not invokable, at the calls
`map(5, xs)`, `filter(5, xs)`, `reduce(5, 0, xs)` and `reduce(5, xs)` in a
scope where the symbol `xs` is bound to the one-element list `(1)`: the
designator `5` evaluates to the integer 5 and `xs` to the list, and the
first three calls panic in the type assertion `fn.(sabre.Invokable)`
instead of returning a "not invokable" error, while the last returns `1`
with no error at all. -/
theorem not_invokable_designator_panics :
    slangMap demoHost 2 [("xs", .list [.int64 1])] [.int64 5, .symbol "xs"] =
      some (.fault (.interfaceConversion "sabre.Int64"), [("xs", .list [.int64 1])]) ∧
    filter demoHost 2 [("xs", .list [.int64 1])] [.int64 5, .symbol "xs"] =
      some (.fault (.interfaceConversion "sabre.Int64"), [("xs", .list [.int64 1])]) ∧
    reduce demoHost 2 [("xs", .list [.int64 1])] [.int64 5, .int64 0, .symbol "xs"] =
      some (.fault (.interfaceConversion "sabre.Int64"), [("xs", .list [.int64 1])]) ∧
    reduce demoHost 2 [("xs", .list [.int64 1])] [.int64 5, .symbol "xs"] =
      some (.value (.int64 1), [("xs", .list [.int64 1])]) := by
  have hmf := map_filter_not_invokable_panic demoHost 2 [("xs", .list [.int64 1])]
    [("xs", .list [.int64 1])] [("xs", .list [.int64 1])] [.int64 5, .symbol "xs"]
    (.int64 5) (.list [.int64 1]) (.int64 1) [] (by decide) rfl rfl rfl rfl pulls_demo_1
    (by decide)
  refine ⟨hmf.1, hmf.2, ?_, ?_⟩
  · rw [reduce_seed_ok demoHost 2 [("xs", .list [.int64 1])] [("xs", .list [.int64 1])]
      [("xs", .list [.int64 1])] [("xs", .list [.int64 1])]
      [.int64 5, .int64 0, .symbol "xs"]
      (.int64 5) (.list [.int64 1]) (.int64 0) [.int64 1] rfl rfl rfl rfl pulls_demo_1
      (by decide) rfl]
    rfl
  · rw [reduce_noseed_cons demoHost 2 [("xs", .list [.int64 1])] [("xs", .list [.int64 1])]
      [("xs", .list [.int64 1])] [.int64 5, .symbol "xs"]
      (.int64 5) (.list [.int64 1]) (.int64 1) [] (by decide) (by decide) rfl rfl rfl
      pulls_demo_1 (by decide)]
    rfl

/-! ## Failure of an element -/

/-- The loop of `slangMap` stops at the first element on which `fn` fails
and returns that error. -/
theorem mapLoop_first_failure (h : Host σ) (fn : Value) (hinv : h.invokable fn = true)
    (s s1 s2 : σ) (pre rs post : List Value) (e : Value) (x : HostError)
    (hpre : InvokeEach h fn s pre rs s1) (hfail : h.invoke s1 fn [e] = (.error x, s2)) :
    ∀ acc, mapLoop h fn (pre ++ e :: post) acc s = (.error (.host x), s2) := by
  induction hpre with
  | nil s =>
    intro acc
    simp only [List.nil_append, mapLoop, hinv, if_true, hfail]
  | cons s s1 s3 e0 r es rs hcall _ ih =>
    intro acc
    simp only [List.cons_append, mapLoop, hinv, if_true, hcall]
    exact ih hfail _

/-- The loop of `filter` stops at the first element on which `fn` fails
and returns that error. -/
theorem filterLoop_first_failure (h : Host σ) (fn : Value) (hinv : h.invokable fn = true)
    (s s1 s2 : σ) (pre rs post : List Value) (e : Value) (x : HostError)
    (hpre : InvokeEach h fn s pre rs s1) (hfail : h.invoke s1 fn [e] = (.error x, s2)) :
    ∀ acc, filterLoop h fn (pre ++ e :: post) acc s = (.error (.host x), s2) := by
  induction hpre with
  | nil s =>
    intro acc
    simp only [List.nil_append, filterLoop, hinv, if_true, hfail]
  | cons s s1 s3 e0 r es rs hcall _ ih =>
    intro acc
    simp only [List.cons_append, filterLoop, hinv, if_true, hcall]
    cases isTruthy r with
    | true => simp only [if_true]; exact ih hfail _
    | false => simp only [Bool.false_eq_true, if_false]; exact ih hfail _

/-- The log of a traced invocation. -/
theorem traced_invoke (h : Host σ) (s : σ) (log : List Event) (fn : Value)
    (args : List Value) :
    (traced h).invoke (s, log) fn args =
      ((h.invoke s fn args).1, ((h.invoke s fn args).2, log ++ [Event.invoke fn args])) := rfl

/-- Successful element-wise invocation, seen in the traced host: one
invocation per element is logged, in the order of the elements. -/
theorem InvokeEach.traced_log {h : Host σ} {fn : Value} {s s1 : σ} {es rs : List Value}
    (hall : InvokeEach h fn s es rs s1) :
    ∀ log : List Event, InvokeEach (Slang.traced h) fn (s, log) es rs
      (s1, log ++ es.map (fun e => Event.invoke fn [e])) := by
  induction hall with
  | nil s =>
    intro log
    simpa using @InvokeEach.nil _ (Slang.traced h) fn (s, log)
  | cons s s1 s2 e r es rs hcall _ ih =>
    intro log
    have hstep : (Slang.traced h).invoke (s, log) fn [e] =
        (.ok r, (s1, log ++ [Event.invoke fn [e]])) := by
      rw [traced_invoke, hcall]
    have htail := ih (log ++ [Event.invoke fn [e]])
    rw [List.append_assoc] at htail
    exact InvokeEach.cons _ _ _ _ _ _ _ hstep htail

/-- C11. The first failure of an element short-circuits: when `fn`
succeeds on the elements `pre` of the realized sequence `pre ++ e :: post`
and fails on `e` with the error `x`, `slangMap` and `filter` return exactly
`x`, with no result list, and the calls made to the host are the two
evaluations, one invocation for each element of `pre` and the invocation on
`e`: `fn` is never invoked on an element of `post`. -/
theorem first_failure_short_circuits (h : Host σ) (fuel : Nat) (scope s1 s2 s3 s4 : σ)
    (args : List Value) (fn sv e : Value) (pre post rs : List Value) (x : HostError)
    (hlen : 2 ≤ args.length)
    (hfn : h.eval scope (args.getD 0 .absent) = (.ok fn, s1))
    (hseq : h.eval s1 (args.getD 1 .absent) = (.ok sv, s2))
    (hinv : h.invokable fn = true) (hisSeq : h.isSeq sv = true)
    (hp : Pulls h (some sv) (pre ++ e :: post)) (hf : (pre ++ e :: post).length < fuel)
    (hpre : InvokeEach h fn s2 pre rs s3) (hfail : h.invoke s3 fn [e] = (.error x, s4)) :
    (slangMap h fuel scope args = some (.error (.host x), s4) ∧
      filter h fuel scope args = some (.error (.host x), s4)) ∧
    (slangMap (traced h) fuel (scope, []) args =
        some (.error (.host x), (s4,
          [Event.eval (args.getD 0 .absent), Event.eval (args.getD 1 .absent)] ++
            pre.map (fun v => Event.invoke fn [v]) ++ [Event.invoke fn [e]])) ∧
      filter (traced h) fuel (scope, []) args =
        some (.error (.host x), (s4,
          [Event.eval (args.getD 0 .absent), Event.eval (args.getD 1 .absent)] ++
            pre.map (fun v => Event.invoke fn [v]) ++ [Event.invoke fn [e]]))) := by
  have key : ∀ {τ : Type} (g : Host τ) (t t1 t2 t3 t4 : τ),
      g.eval t (args.getD 0 .absent) = (.ok fn, t1) →
      g.eval t1 (args.getD 1 .absent) = (.ok sv, t2) →
      g.invokable fn = true → g.isSeq sv = true → Pulls g (some sv) (pre ++ e :: post) →
      InvokeEach g fn t2 pre rs t3 → g.invoke t3 fn [e] = (.error x, t4) →
      slangMap g fuel t args = some (.error (.host x), t4) ∧
      filter g fuel t args = some (.error (.host x), t4) := by
    intro τ g t t1 t2 t3 t4 gfn gseq ginv gisSeq gp gpre gfail
    rw [slangMap_eq_mapLoop g fuel t t1 t2 args fn sv _ hlen gfn gseq gisSeq gp hf,
      filter_eq_filterLoop g fuel t t1 t2 args fn sv _ hlen gfn gseq gisSeq gp hf,
      mapLoop_first_failure g fn ginv t2 t3 t4 pre rs post e x gpre gfail,
      filterLoop_first_failure g fn ginv t2 t3 t4 pre rs post e x gpre gfail]
    exact ⟨rfl, rfl⟩
  refine ⟨key h scope s1 s2 s3 s4 hfn hseq hinv hisSeq hp hpre hfail, ?_⟩
  have e0 : (traced h).eval (scope, []) (args.getD 0 .absent) =
      (.ok fn, (s1, [Event.eval (args.getD 0 .absent)])) := by
    rw [traced_eval, hfn]; rfl
  have e1 : (traced h).eval (s1, [Event.eval (args.getD 0 .absent)]) (args.getD 1 .absent) =
      (.ok sv, (s2, [Event.eval (args.getD 0 .absent), Event.eval (args.getD 1 .absent)])) := by
    rw [traced_eval, hseq]; rfl
  have e2 : (traced h).invoke (s3,
      [Event.eval (args.getD 0 .absent), Event.eval (args.getD 1 .absent)] ++
        pre.map (fun v => Event.invoke fn [v])) fn [e] =
      (.error x, (s4, [Event.eval (args.getD 0 .absent), Event.eval (args.getD 1 .absent)] ++
        pre.map (fun v => Event.invoke fn [v]) ++ [Event.invoke fn [e]])) := by
    rw [traced_invoke, hfail]
  exact key (traced h) _ _ _ _ _ e0 e1 hinv hisSeq hp.traced (hpre.traced_log _) e2

/-- The list `(1 nil 3)` of the concrete host pulls to its three elements. -/
theorem pulls_demo_1_nil_3 :
    Pulls demoHost (some (.list [.int64 1, .nil, .int64 3])) [.int64 1, .nil, .int64 3] :=
  Pulls.step (.list [.int64 1, .nil, .int64 3]) [.nil, .int64 3]
    (fun hc => Value.noConfusion hc)
    (Pulls.step (.list [.nil, .int64 3]) [.int64 3] (fun hc => Value.noConfusion hc)
      (Pulls.step (.list [.int64 3]) [] (fun hc => Value.noConfusion hc) Pulls.nilSeq))

/-- C11 at `map(+, (1 nil 3))` and `filter(+, (1 nil 3))` in the concrete
host: the addition succeeds on `1`, fails on `nil`, and is not invoked on
`3`. -/
theorem first_failure_short_circuits_witness :
    slangMap (traced demoHost) 4 ([("+", .fn 0)], [])
        [.symbol "+", .list [.int64 1, .nil, .int64 3]] =
      some (.error (.host ⟨"+ expects integers"⟩), ([("+", .fn 0)],
        [Event.eval (.symbol "+"), Event.eval (.list [.int64 1, .nil, .int64 3]),
          Event.invoke (.fn 0) [.int64 1], Event.invoke (.fn 0) [.nil]])) ∧
    filter (traced demoHost) 4 ([("+", .fn 0)], [])
        [.symbol "+", .list [.int64 1, .nil, .int64 3]] =
      some (.error (.host ⟨"+ expects integers"⟩), ([("+", .fn 0)],
        [Event.eval (.symbol "+"), Event.eval (.list [.int64 1, .nil, .int64 3]),
          Event.invoke (.fn 0) [.int64 1], Event.invoke (.fn 0) [.nil]])) :=
  (first_failure_short_circuits demoHost 4 [("+", .fn 0)] [("+", .fn 0)] [("+", .fn 0)]
    [("+", .fn 0)] [("+", .fn 0)] [.symbol "+", .list [.int64 1, .nil, .int64 3]] (.fn 0)
    (.list [.int64 1, .nil, .int64 3]) .nil [.int64 1] [.int64 3] [.int64 1]
    ⟨"+ expects integers"⟩ (by decide) rfl rfl rfl rfl pulls_demo_1_nil_3 (by decide)
    (InvokeEach.cons _ _ _ _ _ _ _ rfl (InvokeEach.nil _)) rfl).2

/-! ## Threading: theorems -/

/-- A thread-first step on a call form with an operator. -/
theorem threadLoop_first_list (h : Host σ) (op r : Value) (tail rest : List Value) (s : σ) :
    threadLoop h false (.list (op :: tail) :: rest) r s =
      match h.eval s (.list (op :: r :: tail)) with
      | (.error e, t) => ((.error (.host e), t), .list (op :: r :: tail) :: rest)
      | (.ok r1, t) =>
        ((threadLoop h false rest r1 t).1,
          .list (op :: r :: tail) :: (threadLoop h false rest r1 t).2) := by
  simp [threadLoop]

/-- A thread-last step on a call form. -/
theorem threadLoop_last_list (h : Host σ) (r : Value) (values rest : List Value) (s : σ) :
    threadLoop h true (.list values :: rest) r s =
      match h.eval s (.list (values ++ [r])) with
      | (.error e, t) => ((.error (.host e), t), .list (values ++ [r]) :: rest)
      | (.ok r1, t) =>
        ((threadLoop h true rest r1 t).1,
          .list (values ++ [r]) :: (threadLoop h true rest r1 t).2) := by
  simp [threadLoop]

/-- The pipeline of a seed and one call form, for any host: the seed is
evaluated, then the form with the result spliced in. -/
theorem threadCall_one_step (h : Host σ) (scope s1 : σ) (seed op r : Value)
    (tail : List Value) (last : Bool) (hseed : h.eval scope seed = (.ok r, s1)) :
    threadCall h scope [seed, .list (op :: tail)] last =
      (liftEval (h.eval s1 (.list (if last then op :: (tail ++ [r]) else op :: r :: tail))),
        [seed, .list (if last then op :: (tail ++ [r]) else op :: r :: tail)]) := by
  cases last with
  | true =>
    simp only [threadCall, hseed, threadLoop_last_list, if_true, List.cons_append]
    rcases h.eval s1 (.list (op :: (tail ++ [r]))) with ⟨x | v, t⟩ <;> simp [liftEval, threadLoop]
  | false =>
    simp only [threadCall, hseed, threadLoop_first_list, Bool.false_eq_true, if_false]
    rcases h.eval s1 (.list (op :: r :: tail)) with ⟨x | v, t⟩ <;> simp [liftEval, threadLoop]

/-- C12. The splice position of threading: for a step that is a call form
`(op a1 ... an)` and a running result `r`, thread-first evaluates
`(op r a1 ... an)` and thread-last evaluates `(op a1 ... an r)`, at any
place of the pipeline; the operator stays first, the arguments keep their
order and `r` is the one element added.  For the pipeline of a seed that
evaluates to `r` and one such step, the calls made to the evaluator are the
seed and the spliced form. -/
theorem thread_splice_position (h : Host σ) (scope s1 : σ) (seed op r : Value)
    (tail : List Value) (hseed : h.eval scope seed = (.ok r, s1)) :
    ((ThreadFirst h scope [seed, .list (op :: tail)]).1 =
        liftEval (h.eval s1 (.list (op :: r :: tail))) ∧
      (ThreadFirst (traced h) (scope, []) [seed, .list (op :: tail)]).1.2.2 =
        [Event.eval seed, Event.eval (.list (op :: r :: tail))]) ∧
    ((ThreadLast h scope [seed, .list (op :: tail)]).1 =
        liftEval (h.eval s1 (.list (op :: (tail ++ [r])))) ∧
      (ThreadLast (traced h) (scope, []) [seed, .list (op :: tail)]).1.2.2 =
        [Event.eval seed, Event.eval (.list (op :: (tail ++ [r])))]) ∧
    (∀ (rest : List Value) (r0 : Value) (s : σ),
      (threadLoop h false (.list (op :: tail) :: rest) r0 s).1 =
        match h.eval s (.list (op :: r0 :: tail)) with
        | (.error e, t) => (.error (.host e), t)
        | (.ok r1, t) => (threadLoop h false rest r1 t).1) ∧
    (∀ (rest : List Value) (r0 : Value) (s : σ),
      (threadLoop h true (.list (op :: tail) :: rest) r0 s).1 =
        match h.eval s (.list (op :: (tail ++ [r0]))) with
        | (.error e, t) => (.error (.host e), t)
        | (.ok r1, t) => (threadLoop h true rest r1 t).1) := by
  have ht : (traced h).eval (scope, []) seed = (.ok r, (s1, [Event.eval seed])) := by
    rw [traced_eval, hseed]; rfl
  refine ⟨⟨?_, ?_⟩, ⟨?_, ?_⟩, fun rest r0 s => ?_, fun rest r0 s => ?_⟩
  · rw [ThreadFirst, threadCall_one_step h scope s1 seed op r tail false hseed]
    rfl
  · rw [ThreadFirst, threadCall_one_step (traced h) _ _ seed op r tail false ht]
    simp only [Bool.false_eq_true, if_false]
    rw [liftEval_snd, traced_eval]
    rfl
  · rw [ThreadLast, threadCall_one_step h scope s1 seed op r tail true hseed]
    rfl
  · rw [ThreadLast, threadCall_one_step (traced h) _ _ seed op r tail true ht]
    simp only [if_true]
    rw [liftEval_snd, traced_eval]
    rfl
  · rw [threadLoop_first_list]
    rcases h.eval s (.list (op :: r0 :: tail)) with ⟨x | v, t⟩ <;> rfl
  · rw [threadLoop_last_list]
    simp only [List.cons_append]
    rcases h.eval s (.list (op :: (tail ++ [r0]))) with ⟨x | v, t⟩ <;> rfl

/-- C12, the examples of the spec: `(-> 5 (f 1))` evaluates `(f 5 1)` and
`(->> 5 (f 1))` evaluates `(f 1 5)`. -/
theorem thread_splice_position_witness :
    (ThreadFirst (traced demoHost) ([], []) [.int64 5, .list [.symbol "f", .int64 1]]).1.2.2 =
      [Event.eval (.int64 5), Event.eval (.list [.symbol "f", .int64 5, .int64 1])] ∧
    (ThreadLast (traced demoHost) ([], []) [.int64 5, .list [.symbol "f", .int64 1]]).1.2.2 =
      [Event.eval (.int64 5), Event.eval (.list [.symbol "f", .int64 1, .int64 5])] :=
  ⟨(thread_splice_position demoHost [] [] (.int64 5) (.symbol "f") (.int64 5) [.int64 1]
      rfl).1.2,
   (thread_splice_position demoHost [] [] (.int64 5) (.symbol "f") (.int64 5) [.int64 1]
      rfl).2.1.2⟩

/-- A step that is not a list: it is invoked if it is invokable and is the
"not invokable" error otherwise. -/
theorem threadLoop_other (h : Host σ) (last : Bool) (form r : Value) (rest : List Value)
    (s : σ) (hform : ∀ vs, form ≠ .list vs) :
    threadLoop h last (form :: rest) r s =
      if h.invokable form then
        match h.invoke s form [r] with
        | (.error e, t) => ((.error (.host e), t), form :: rest)
        | (.ok r1, t) =>
          ((threadLoop h last rest r1 t).1, form :: (threadLoop h last rest r1 t).2)
      else
        ((.error (.errorsNew (fmtTypeOf h r ++ " is not invokable")), s), form :: rest) := by
  cases form <;> first | exact absurd rfl (hform _) | simp only [threadLoop]

/-- The step of the contract on a form that is not a list. -/
theorem pipelineStep_other (h : Host σ) (last : Bool) (form r : Value) (s : σ)
    (hform : ∀ vs, form ≠ .list vs) :
    pipelineStep h last (.value r, s) form =
      if h.invokable form then liftEval (h.invoke s form [r])
      else (.error (.errorsNew (fmtTypeOf h r ++ " is not invokable")), s) := by
  cases form <;> first | exact absurd rfl (hform _) | simp only [pipelineStep]

/-- A pipeline that has failed stays as it is. -/
theorem foldl_pipelineStep_stuck (h : Host σ) (last : Bool) :
    ∀ (steps : List Value) (acc : Outcome × σ), (∀ v, acc.1 ≠ .value v) →
      steps.foldl (pipelineStep h last) acc = acc
  | [], _, _ => rfl
  | step :: steps, acc, hacc => by
    have hstep : pipelineStep h last acc step = acc := by
      rcases acc with ⟨o, s⟩
      cases o with
      | value v => exact absurd rfl (hacc v)
      | error e => simp only [pipelineStep]
      | fault p => simp only [pipelineStep]
    rw [List.foldl_cons, hstep]
    exact foldl_pipelineStep_stuck h last steps acc hacc

/-- The loop of `threadCall` is the left fold of the step of the contract,
provided no step of a thread-first pipeline is the empty list. -/
theorem threadLoop_eq_foldl (h : Host σ) (last : Bool) :
    ∀ (steps : List Value) (r : Value) (s : σ),
      (last = false → ∀ f, f ∈ steps → f ≠ .list []) →
      (threadLoop h last steps r s).1 = steps.foldl (pipelineStep h last) (.value r, s) := by
  intro steps
  induction steps with
  | nil => intro r s _; rfl
  | cons form rest ih =>
    intro r s hne
    have hrest : last = false → ∀ f, f ∈ rest → f ≠ .list [] :=
      fun hl f hf => hne hl f (List.mem_cons_of_mem form hf)
    rw [List.foldl_cons]
    by_cases hform : ∀ vs, form ≠ .list vs
    · rw [threadLoop_other h last form r rest s hform, pipelineStep_other h last form r s hform]
      cases hinv : h.invokable form with
      | true =>
        simp only [if_true]
        rcases h.invoke s form [r] with ⟨x | v, t⟩
        · rw [liftEval, foldl_pipelineStep_stuck h last rest _ (fun v hc => by simp at hc)]
        · exact ih v t hrest
      | false =>
        simp only [Bool.false_eq_true, if_false]
        rw [foldl_pipelineStep_stuck h last rest _ (fun v hc => by simp at hc)]
    · push_neg at hform
      obtain ⟨values, rfl⟩ := hform
      cases last with
      | true =>
        rw [threadLoop_last_list]
        simp only [pipelineStep, if_true]
        rcases h.eval s (.list (values ++ [r])) with ⟨x | v, t⟩
        · rw [liftEval, foldl_pipelineStep_stuck h true rest _ (fun v hc => by simp at hc)]
        · exact ih v t hrest
      | false =>
        cases values with
        | nil => exact absurd rfl (hne rfl _ (List.mem_cons_self _ _))
        | cons op tail =>
          rw [threadLoop_first_list]
          simp only [pipelineStep, Bool.false_eq_true, if_false, List.take_succ_cons,
            List.take_zero, List.drop_succ_cons, List.drop_zero, List.singleton_append]
          rcases h.eval s (.list (op :: r :: tail)) with ⟨x | v, t⟩
          · rw [liftEval, foldl_pipelineStep_stuck h false rest _ (fun v hc => by simp at hc)]
          · exact ih v t hrest

/-- The "not invokable" message is not the message of the argument count. -/
theorem not_invokable_ne_required (t : String) :
    t ++ " is not invokable" ≠ "at-least 1 argument required" := by
  intro hc
  have h2 := congrArg (fun s => s.data.getLast?) hc
  simp only [String.data_append, List.getLast?_append] at h2
  simp [List.getLast?] at h2

/-- The only error the loop of `threadCall` makes itself is the
"not invokable" error. -/
theorem threadLoop_errorsNew (h : Host σ) (last : Bool) :
    ∀ (steps : List Value) (r : Value) (s : σ) (m : String),
      (threadLoop h last steps r s).1.1 = .error (.errorsNew m) →
      ∃ t, m = t ++ " is not invokable" := by
  intro steps
  induction steps with
  | nil => intro r s m hm; simp [threadLoop] at hm
  | cons form rest ih =>
    intro r s m hm
    by_cases hform : ∀ vs, form ≠ .list vs
    · rw [threadLoop_other h last form r rest s hform] at hm
      cases hinv : h.invokable form with
      | true =>
        simp only [hinv, if_true] at hm
        rcases hev : h.invoke s form [r] with ⟨x | v, t⟩
        · rw [hev] at hm
          simp at hm
        · rw [hev] at hm
          exact ih v t m hm
      | false =>
        simp only [hinv, Bool.false_eq_true, if_false] at hm
        refine ⟨fmtTypeOf h r, ?_⟩
        simpa using hm.symm
    · push_neg at hform
      obtain ⟨values, rfl⟩ := hform
      cases last with
      | true =>
        rw [threadLoop_last_list] at hm
        rcases hev : h.eval s (.list (values ++ [r])) with ⟨x | v, t⟩
        · rw [hev] at hm
          simp at hm
        · rw [hev] at hm
          exact ih v t m hm
      | false =>
        cases values with
        | nil => simp [threadLoop] at hm
        | cons op tail =>
          rw [threadLoop_first_list] at hm
          rcases hev : h.eval s (.list (op :: r :: tail)) with ⟨x | v, t⟩
          · rw [hev] at hm
            simp at hm
          · rw [hev] at hm
            exact ih v t m hm

/-- The threading contract, for any host: `threadCall` ends in the
argument-count error exactly on the empty pipeline; on a pipeline
`seed :: steps` none of whose steps is the empty list when threading first,
its result is the left fold of the step of the contract over `steps` from
the evaluation of the seed (that evaluation itself when there is no step);
and once a prefix of the steps has failed, the steps after it change
neither the result nor the scope. -/
theorem threadCall_fold (h : Host σ) (scope : σ) (last : Bool) :
    (∀ args, (threadCall h scope args last).1.1 =
        .error (.errorsNew "at-least 1 argument required") ↔ args = []) ∧
    (∀ seed steps, (last = false → ∀ f, f ∈ steps → f ≠ .list []) →
      (threadCall h scope (seed :: steps) last).1 =
        steps.foldl (pipelineStep h last) (liftEval (h.eval scope seed))) ∧
    (∀ seed, (threadCall h scope [seed] last).1 = liftEval (h.eval scope seed)) ∧
    (∀ (pre post : List Value) (acc : Outcome × σ),
      (∀ v, (pre.foldl (pipelineStep h last) acc).1 ≠ .value v) →
      (pre ++ post).foldl (pipelineStep h last) acc = pre.foldl (pipelineStep h last) acc) := by
  have hfold : ∀ seed steps, (last = false → ∀ f, f ∈ steps → f ≠ .list []) →
      (threadCall h scope (seed :: steps) last).1 =
        steps.foldl (pipelineStep h last) (liftEval (h.eval scope seed)) := by
    intro seed steps hne
    simp only [threadCall]
    rcases h.eval scope seed with ⟨x | v, t⟩
    · rw [liftEval, foldl_pipelineStep_stuck h last steps _ (fun v hc => by simp at hc)]
    · exact threadLoop_eq_foldl h last steps v t hne
  refine ⟨fun args => ⟨fun hm => ?_, fun hnil => ?_⟩, hfold,
    fun seed => hfold seed [] (fun _ f hf => by simp at hf), fun pre post acc hacc => ?_⟩
  · cases args with
    | nil => rfl
    | cons seed steps =>
      exfalso
      simp only [threadCall] at hm
      rcases hev : h.eval scope seed with ⟨x | v, t⟩
      · rw [hev] at hm
        simp at hm
      · rw [hev] at hm
        obtain ⟨t1, ht1⟩ := threadLoop_errorsNew h last steps v t _ hm
        exact not_invokable_ne_required t1 ht1.symm
  · subst hnil
    rfl
  · rw [List.foldl_append, foldl_pipelineStep_stuck h last post _ hacc]

/-- C13. Threading as a fold, at the pipeline `(-> 5 ())` of the concrete
host: the step is the empty list, the access `f.Values[0]` of thread-first
is out of range, and the call ends in a panic, neither in a result nor in
an error. -/
theorem thread_first_empty_form_panics :
    ThreadFirst demoHost [] [.int64 5, .list []] =
      ((.fault (.indexOutOfRange 0 0), []), [.int64 5, .list []]) := by
  rfl

/-- After a successful run of the loop of `threadCall` every step that is a
list holds one element more, at the same place of the pipeline. -/
theorem threadLoop_forms (h : Host σ) (last : Bool) :
    ∀ (steps : List Value) (r : Value) (s : σ) (v : Value),
      (threadLoop h last steps r s).1.1 = .value v →
      ∀ (i : Nat) (vs : List Value), steps[i]? = some (.list vs) →
        ∃ vs1, (threadLoop h last steps r s).2[i]? = some (.list vs1) ∧
          vs1.length = vs.length + 1 := by
  intro steps
  induction steps with
  | nil => intro r s v _ i vs hi; simp at hi
  | cons form rest ih =>
    intro r s v hv i vs hi
    by_cases hform : ∀ vs, form ≠ .list vs
    · rw [threadLoop_other h last form r rest s hform] at hv ⊢
      cases hinv : h.invokable form with
      | true =>
        simp only [hinv, if_true] at hv ⊢
        rcases hev : h.invoke s form [r] with ⟨x | w, t⟩
        · rw [hev] at hv
          simp at hv
        · rw [hev] at hv
          cases i with
          | zero =>
            simp only [List.getElem?_cons_zero, Option.some.injEq] at hi
            exact absurd hi (hform vs)
          | succ i =>
            simp only [List.getElem?_cons_succ] at hi ⊢
            exact ih w t v hv i vs hi
      | false =>
        simp only [hinv, Bool.false_eq_true, if_false] at hv
        simp at hv
    · push_neg at hform
      obtain ⟨values, rfl⟩ := hform
      cases last with
      | true =>
        rw [threadLoop_last_list] at hv ⊢
        rcases hev : h.eval s (.list (values ++ [r])) with ⟨x | w, t⟩
        · rw [hev] at hv
          simp at hv
        · rw [hev] at hv
          cases i with
          | zero =>
            simp only [List.getElem?_cons_zero, Option.some.injEq, Value.list.injEq] at hi
            subst hi
            exact ⟨values ++ [r], by simp⟩
          | succ i =>
            simp only [List.getElem?_cons_succ] at hi ⊢
            exact ih w t v hv i vs hi
      | false =>
        cases values with
        | nil => simp [threadLoop] at hv
        | cons op tail =>
          rw [threadLoop_first_list] at hv ⊢
          rcases hev : h.eval s (.list (op :: r :: tail)) with ⟨x | w, t⟩
          · rw [hev] at hv
            simp at hv
          · rw [hev] at hv
            cases i with
            | zero =>
              simp only [List.getElem?_cons_zero, Option.some.injEq, Value.list.injEq] at hi
              subst hi
              exact ⟨op :: r :: tail, by simp⟩
            | succ i =>
              simp only [List.getElem?_cons_succ] at hi ⊢
              exact ih w t v hv i vs hi

/-- C20. Threading modifies the step forms of the caller in place: after a
successful call every step that is a call form of `n + 1` elements holds
`n + 2` elements, at the same place of the argument list.  For the pipeline
of a seed and one call form `(op a1 ... an)`, the forms left by a first run
with running result `r1` are the seed and the spliced form, and a second
run on these forms, with running result `r2`, evaluates
`(op a1 ... an r1 r2)` when threading last and `(op r2 r1 a1 ... an)` when
threading first, which is not the form a first run evaluates. -/
theorem thread_mutates_forms (h : Host σ) (scope s1 s2 s3 : σ) (seed op r1 r2 out : Value)
    (tail : List Value) (last : Bool)
    (hseed1 : h.eval scope seed = (.ok r1, s1))
    (hrun1 : h.eval s1 (.list (if last then op :: (tail ++ [r1]) else op :: r1 :: tail)) =
      (.ok out, s2))
    (hseed2 : h.eval s2 seed = (.ok r2, s3)) :
    threadCall h scope [seed, .list (op :: tail)] last =
      ((.value out, s2),
        [seed, .list (if last then op :: (tail ++ [r1]) else op :: r1 :: tail)]) ∧
    (threadCall (traced h) (s2, [])
        (threadCall h scope [seed, .list (op :: tail)] last).2 last).1.2.2 =
      [Event.eval seed,
        Event.eval (.list (if last then op :: (tail ++ [r1, r2]) else op :: r2 :: r1 :: tail))] ∧
    Value.list (if last then op :: (tail ++ [r1, r2]) else op :: r2 :: r1 :: tail) ≠
      Value.list (if last then op :: (tail ++ [r2]) else op :: r2 :: tail) ∧
    (∀ (steps : List Value) (v : Value),
      (threadCall h scope (seed :: steps) last).1.1 = .value v →
      ∀ (i : Nat) (vs : List Value), steps[i]? = some (.list vs) →
        ∃ vs1, (threadCall h scope (seed :: steps) last).2[i + 1]? = some (.list vs1) ∧
          vs1.length = vs.length + 1) := by
  have hfirst : threadCall h scope [seed, .list (op :: tail)] last =
      ((.value out, s2),
        [seed, .list (if last then op :: (tail ++ [r1]) else op :: r1 :: tail)]) := by
    rw [threadCall_one_step h scope s1 seed op r1 tail last hseed1, hrun1]
    rfl
  have ht : (traced h).eval (s2, []) seed = (.ok r2, (s3, [Event.eval seed])) := by
    rw [traced_eval, hseed2]; rfl
  refine ⟨hfirst, ?_, ?_, fun steps v hv i vs hi => ?_⟩
  · rw [hfirst]
    cases last with
    | true =>
      simp only [if_true]
      rw [threadCall_one_step (traced h) _ _ seed op r2 (tail ++ [r1]) true ht]
      simp only [if_true]
      rw [liftEval_snd, traced_eval]
      simp
    | false =>
      simp only [Bool.false_eq_true, if_false]
      rw [threadCall_one_step (traced h) _ _ seed op r2 (r1 :: tail) false ht]
      simp only [Bool.false_eq_true, if_false]
      rw [liftEval_snd, traced_eval]
      simp
  · intro hc
    have hl := congrArg List.length (Value.list.inj hc)
    cases last <;> simp at hl
  · simp only [threadCall, hseed1] at hv ⊢
    simp only [List.getElem?_cons_succ]
    exact threadLoop_forms h last steps r1 s1 v hv i vs hi

/-- C20 at `(->> 5 (f 1))` run twice in the concrete host: the first run
leaves `(f 1 5)` in the argument list and the second run evaluates
`(f 1 5 5)`. -/
theorem thread_mutates_forms_witness :
    threadCall demoHost [] [.int64 5, .list [.symbol "f", .int64 1]] true =
      ((.value (.list [.symbol "f", .int64 1, .int64 5]), []),
        [.int64 5, .list [.symbol "f", .int64 1, .int64 5]]) ∧
    (threadCall (traced demoHost) ([], [])
        (threadCall demoHost [] [.int64 5, .list [.symbol "f", .int64 1]] true).2 true).1.2.2 =
      [Event.eval (.int64 5), Event.eval (.list [.symbol "f", .int64 1, .int64 5, .int64 5])] :=
  ⟨(thread_mutates_forms demoHost [] [] [] [] (.int64 5) (.symbol "f") (.int64 5) (.int64 5)
      (.list [.symbol "f", .int64 1, .int64 5]) [.int64 1] true rfl rfl rfl).1,
   (thread_mutates_forms demoHost [] [] [] [] (.int64 5) (.symbol "f") (.int64 5) (.int64 5)
      (.list [.symbol "f", .int64 1, .int64 5]) [.int64 1] true rfl rfl rfl).2.1⟩

/-! ## `slangRange`: theorems -/

/-- In the range of the type `int` the arithmetic is exact. -/
theorem wrapInt_of_inRange (x : Int) (h1 : -2 ^ 63 ≤ x) (h2 : x < 2 ^ 63) : wrapInt x = x := by
  unfold wrapInt
  omega

/-- The range loop with a positive step that does not overflow: from `i`,
the `n` values `i, i + step, ...` below `max` are appended, and the loop
ends, as soon as the fuel exceeds `n`. -/
theorem rangeLoop_progression (max step : Int) (hstep : 0 < step) :
    ∀ (n fuel : Nat) (i : Int) (result : List Value), n < fuel →
      (∀ k : Nat, k < n → i + k * step < max) → max ≤ i + n * step →
      -2 ^ 63 ≤ i → i + n * step < 2 ^ 63 →
      rangeLoop max step fuel i result =
        some (result ++ (List.range n).map (fun k : Nat => Value.int64 (i + k * step))) := by
  intro n
  induction n with
  | zero =>
    intro fuel i result hf _ hend _ _
    cases fuel with
    | zero => omega
    | succ f =>
      have hge : ¬ i < max := by
        simp only [Nat.cast_zero, zero_mul, add_zero] at hend
        omega
      simp [rangeLoop, hge]
  | succ n ih =>
    intro fuel i result hf hk hend hlo hhi
    cases fuel with
    | zero => omega
    | succ f =>
      have hlt : i < max := by simpa using hk 0 (Nat.succ_pos n)
      have hnn : 0 ≤ (n : Int) * step := by positivity
      have hcast : ((n + 1 : Nat) : Int) * step = (n : Int) * step + step := by
        push_cast; ring
      rw [hcast] at hend hhi
      have hw : wrapInt (i + step) = i + step :=
        wrapInt_of_inRange _ (by omega) (by omega)
      rw [rangeLoop]
      simp only [hlt, if_true, hw]
      rw [ih f (i + step) (result ++ [Value.int64 i]) (by omega)
        (fun k hkn => by
          have := hk (k + 1) (by omega)
          have hc : ((k + 1 : Nat) : Int) * step = (k : Int) * step + step := by
            push_cast; ring
          rw [hc] at this
          omega)
        (by omega) (by omega) (by omega)]
      rw [List.range_succ_eq_map, List.map_cons, List.map_map, List.append_assoc]
      simp only [List.singleton_append, Nat.cast_zero, zero_mul, add_zero, Option.some.injEq,
        List.append_cancel_left_eq, List.cons.injEq, true_and]
      refine List.map_congr_left (fun k _ => ?_)
      simp only [Function.comp_apply, Nat.succ_eq_add_one, Value.int64.injEq]
      push_cast
      ring

/-- The range loop with a step that is not positive does not end before the
counter leaves the range of the type `int`. -/
theorem rangeLoop_stuck (max step : Int) (hstep : step ≤ 0) (hmax : max < 2 ^ 63) :
    ∀ (fuel : Nat) (i : Int) (result : List Value), i < max →
      -2 ^ 63 ≤ i + fuel * step → rangeLoop max step fuel i result = none := by
  intro fuel
  induction fuel with
  | zero => intro i result _ _; rfl
  | succ f ih =>
    intro i result hlt hlo
    have hcast : ((f + 1 : Nat) : Int) * step = (f : Int) * step + step := by
      push_cast; ring
    rw [hcast] at hlo
    have hnp : (f : Int) * step ≤ 0 :=
      mul_nonpos_of_nonneg_of_nonpos (Int.ofNat_nonneg f) hstep
    have hw : wrapInt (i + step) = i + step :=
      wrapInt_of_inRange _ (by omega) (by omega)
    rw [rangeLoop]
    simp only [hlt, if_true, hw]
    exact ih (i + step) _ (by omega) (by omega)

/-- The ranges of one and two arguments in the cases without a panic: for
`0 ≤ n` the list `0, ..., n - 1` and for `min ≤ max` the list
`min, ..., max - 1`, when `max - min` is in the range of `int` and is a
capacity that `make` grants, with any fuel above the number of elements. -/
theorem slangRange_interval (capLimit min max : Int) (fuel : Nat) (hmin : -2 ^ 63 ≤ min)
    (hmax : max < 2 ^ 63) (hle : min ≤ max) (hcap : max - min < 2 ^ 63)
    (hlim : max - min ≤ capLimit) (hf : (max - min).toNat < fuel) :
    slangRange capLimit fuel [min, max] =
        some (.value (.list ((List.range (max - min).toNat).map
          (fun k : Nat => Value.int64 (min + k))))) ∧
    (min = 0 → slangRange capLimit fuel [max] =
        some (.value (.list ((List.range max.toNat).map (fun k : Nat => Value.int64 k))))) := by
  have hloop := rangeLoop_progression max 1 Int.one_pos (max - min).toNat fuel min [] hf
    (fun k hk => by omega) (by omega) hmin (by omega)
  simp only [mul_one, List.nil_append] at hloop
  have hcap0 : ¬ (wrapInt (max - min) < 0 ∨ capLimit < wrapInt (max - min)) := by
    rw [wrapInt_of_inRange _ (by omega) hcap]
    omega
  refine ⟨?_, fun h0 => ?_⟩
  · simp only [slangRange, slangRange2, withCap, hcap0, if_false, hloop, Option.map_some']
  · subst h0
    have hm : ¬ (max < 0 ∨ capLimit < max) := by omega
    simp only [sub_zero, zero_add] at hloop
    simp only [slangRange, slangRange1, withCap, hm, if_false, hloop, Option.map_some']

/-- C14. The ranges of one and two arguments, at `range(-1)` and
`range(5, 2)`: the capacity handed to `make` is negative and the call
panics instead of returning the empty list, whatever the limit of the
allocator; `range(3)` is `0, 1, 2` and `range(2, 5)` is `2, 3, 4` as soon
as the allocator grants three values. -/
theorem slangRange_negative_capacity_panics :
    (∀ capLimit : Int, slangRange capLimit 1 [-1] = some (.fault .makesliceCap) ∧
      slangRange capLimit 1 [5, 2] = some (.fault .makesliceCap)) ∧
    (∀ capLimit : Int, 3 ≤ capLimit →
      slangRange capLimit 4 [3] = some (.value (.list [.int64 0, .int64 1, .int64 2])) ∧
      slangRange capLimit 4 [2, 5] =
        some (.value (.list [.int64 2, .int64 3, .int64 4]))) := by
  refine ⟨fun capLimit => ⟨?_, ?_⟩, fun capLimit hl => ⟨?_, ?_⟩⟩
  · have hneg : ((-1 : Int) < 0 ∨ capLimit < -1) := Or.inl (by decide)
    simp only [slangRange, slangRange1, withCap, hneg, if_true]
  · have hw : wrapInt (2 - 5) = -3 := by decide
    have hneg : ((-3 : Int) < 0 ∨ capLimit < -3) := Or.inl (by decide)
    simp only [slangRange, slangRange2, withCap, hw, hneg, if_true]
  · exact (slangRange_interval capLimit 0 3 4 (by decide) (by decide) (by decide) (by decide)
      (by omega) (by decide)).2 rfl
  · exact (slangRange_interval capLimit 2 5 4 (by decide) (by decide) (by decide) (by decide)
      (by omega) (by decide)).1

/-- C15, as stated, fails twice.  With the limit `2^44` of `make` on a
64-bit platform, `range(0, 2^45, 2^44)` has `min ≤ max` and a positive
step and overflows nowhere, but the capacity `max - min = 2^45` asked of
`make` is refused and the call panics instead of returning the two values
`0, 2^44`.  And `range(0, 1, -2^62)` has `min < max` and a negative step,
but the loop ends: the counter goes `0, -2^62, -2^63` and then wraps to
`2^62`, so the call returns these three values. -/
theorem slangRange3_claim_fails :
    slangRange (2 ^ 44) 3 [0, 2 ^ 45, 2 ^ 44] = some (.fault .makesliceCap) ∧
    slangRange (2 ^ 44) 4 [0, 1, -2 ^ 62] =
      some (.value (.list [.int64 0, .int64 (-2 ^ 62), .int64 (-2 ^ 63)])) := by
  constructor
  · have hw : wrapInt (2 ^ 45 - 0) = 2 ^ 45 := by decide
    have hbig : ((2 ^ 45 : Int) < 0 ∨ (2 ^ 44 : Int) < 2 ^ 45) := Or.inr (by decide)
    simp only [slangRange, slangRange3, withCap, hw, hbig, if_true]
  · have hw : wrapInt (1 - 0) = 1 := by decide
    have hcap : ¬ ((1 : Int) < 0 ∨ (2 ^ 44 : Int) < 1) := by decide
    have h1 : wrapInt (0 + -2 ^ 62) = -2 ^ 62 := by decide
    have h2 : wrapInt (-2 ^ 62 + -2 ^ 62) = -2 ^ 63 := by decide
    have h3 : wrapInt (-2 ^ 63 + -2 ^ 62) = 2 ^ 62 := by decide
    have c0 : (0 : Int) < 1 := by decide
    have c1 : (-2 ^ 62 : Int) < 1 := by decide
    have c2 : (-2 ^ 63 : Int) < 1 := by decide
    have c3 : ¬ ((2 ^ 62 : Int) < 1) := by decide
    simp only [slangRange, slangRange3, withCap, hw, hcap, if_false, rangeLoop, c0, c1, c2, c3,
      if_true, h1, h2, h3, List.nil_append, List.cons_append, Option.map_some']

/-- C15, amended.  The range with a step, where `min`, `max` and
`max - min` are in the range of `int` and `max - min` is a capacity that
`make` grants: for `min ≤ max` and a positive step with `max + step` in
range, `slangRange3` ends, with any fuel above
`n = ceil((max - min) / step)`, and returns the `n` values
`min, min + step, ..., min + (n - 1) * step`, which are the values of the
progression below `max`; for `min < max` the loop never ends when the step
is 0, and when the step is negative it does not end before the counter
leaves the range of `int`. -/
theorem slangRange3_progression (capLimit min max step : Int) (hmin : -2 ^ 63 ≤ min)
    (hmax : max < 2 ^ 63) (hcap : max - min < 2 ^ 63) (hlim : max - min ≤ capLimit) :
    (min ≤ max → 0 < step → max + step ≤ 2 ^ 63 →
      (∀ fuel : Nat, ((max - min + step - 1) / step).toNat < fuel →
        slangRange capLimit fuel [min, max, step] =
          some (.value (.list ((List.range ((max - min + step - 1) / step).toNat).map
            (fun k : Nat => Value.int64 (min + k * step)))))) ∧
      (∀ k : Nat, k < ((max - min + step - 1) / step).toNat → min + k * step < max) ∧
      max ≤ min + (((max - min + step - 1) / step).toNat : Int) * step) ∧
    (min < max → step ≤ 0 →
      (∀ fuel : Nat, -2 ^ 63 ≤ min + fuel * step →
        slangRange capLimit fuel [min, max, step] = none) ∧
      (step = 0 → ∀ fuel : Nat, slangRange capLimit fuel [min, max, step] = none)) := by
  constructor
  · intro hle hstep hover
    have h1 := Int.ediv_add_emod (max - min + step - 1) step
    have h2 := Int.emod_nonneg (max - min + step - 1) (ne_of_gt hstep)
    have h3 := Int.emod_lt_of_pos (max - min + step - 1) hstep
    rw [mul_comm] at h1
    have hq0 : 0 ≤ (max - min + step - 1) / step :=
      Int.ediv_nonneg (by omega) (le_of_lt hstep)
    have hn : (((max - min + step - 1) / step).toNat : Int) = (max - min + step - 1) / step :=
      Int.toNat_of_nonneg hq0
    have hbelow : ∀ k : Nat, k < ((max - min + step - 1) / step).toNat →
        min + k * step < max := by
      intro k hk
      have hk1 : (k : Int) + 1 ≤ (max - min + step - 1) / step := by omega
      have hmul := Int.mul_le_mul_of_nonneg_right hk1 (le_of_lt hstep)
      linarith
    have hend : max ≤ min + (((max - min + step - 1) / step).toNat : Int) * step := by
      rw [hn]; linarith
    have hhi : min + (((max - min + step - 1) / step).toNat : Int) * step < 2 ^ 63 := by
      rw [hn]; linarith
    refine ⟨fun fuel hf => ?_, hbelow, hend⟩
    have hloop := rangeLoop_progression max step hstep _ fuel min [] hf hbelow hend hmin hhi
    have hcap0 : ¬ (wrapInt (max - min) < 0 ∨ capLimit < wrapInt (max - min)) := by
      rw [wrapInt_of_inRange _ (by omega) hcap]
      omega
    simp only [List.nil_append] at hloop
    simp only [slangRange, slangRange3, withCap, hcap0, if_false, hloop, Option.map_some']
  · intro hlt hstep
    have hcap0 : ¬ (wrapInt (max - min) < 0 ∨ capLimit < wrapInt (max - min)) := by
      rw [wrapInt_of_inRange _ (by omega) hcap]
      omega
    have hnone : ∀ fuel : Nat, -2 ^ 63 ≤ min + fuel * step →
        slangRange capLimit fuel [min, max, step] = none := by
      intro fuel hlo
      simp only [slangRange, slangRange3, withCap, hcap0, if_false,
        rangeLoop_stuck max step hstep hmax fuel min [] hlt hlo, Option.map_none']
    refine ⟨hnone, fun h0 fuel => hnone fuel ?_⟩
    rw [h0]
    simpa using hmin

/-- C15, amended, at the example of the spec: `range(0, 10, 3)` is
`0, 3, 6, 9`, with the limit `2^44` of `make`. -/
theorem slangRange3_progression_witness :
    slangRange (2 ^ 44) 5 [0, 10, 3] =
      some (.value (.list [.int64 0, .int64 3, .int64 6, .int64 9])) :=
  ((slangRange3_progression (2 ^ 44) 0 10 3 (by decide) (by decide) (by decide)
    (by decide)).1 (by decide) (by decide) (by decide)).1 5 (by decide)

/-! ## `MakeString` and `Throw`: theorems -/

/-- What `dropWhile` leaves does not end in a dropped character, when the
list does not. -/
theorem getLast?_dropWhile_not (p : Char → Bool) :
    ∀ l : List Char, (∀ c, l.getLast? = some c → p c = false) →
      ∀ c, (l.dropWhile p).getLast? = some c → p c = false
  | [], _, c, hc => by simp at hc
  | a :: t, hl, c, hc => by
    rw [List.dropWhile_cons] at hc
    by_cases ha : p a = true
    · simp only [ha, if_true] at hc
      refine getLast?_dropWhile_not p t (fun d hd => hl d ?_) c hc
      cases t with
      | nil => simp at hd
      | cons b u => simpa [List.getLast?_cons_cons] using hd
    · simp only [ha, if_false] at hc
      exact hl c hc

/-- What `rdropWhile` leaves does not end in a dropped character. -/
theorem getLast?_rdropWhile_not (p : Char → Bool) (l : List Char) :
    ∀ c, (l.rdropWhile p).getLast? = some c → p c = false := by
  intro c hc
  rw [List.rdropWhile, List.getLast?_reverse] at hc
  have h := List.head?_dropWhile_not p l.reverse
  rw [hc] at h
  exact h

/-- A trimmed list neither begins nor ends with a quote character. -/
theorem trimQuoteChars_noEdge (cs : List Char) : NoEdgeQuote (trimQuoteChars cs) := by
  constructor
  · intro hc
    have h := List.head?_dropWhile_not (· == '"') (cs.rdropWhile (· == '"'))
    rw [trimQuoteChars] at hc
    rw [hc] at h
    simp at h
  · intro hc
    have h := getLast?_dropWhile_not (· == '"') (cs.rdropWhile (· == '"'))
      (getLast?_rdropWhile_not _ cs) '"' hc
    simp at h

/-- Lists without a quote character at either end concatenate to such a list. -/
theorem NoEdgeQuote.append {a b : List Char} (ha : NoEdgeQuote a) (hb : NoEdgeQuote b) :
    NoEdgeQuote (a ++ b) := by
  constructor
  · rw [List.head?_append]
    cases a with
    | nil => simpa using hb.1
    | cons x t => simpa using ha.1
  · rw [List.getLast?_append]
    cases hbl : b.getLast? with
    | none => simpa using ha.2
    | some y =>
      have := hb.2
      rw [hbl] at this
      simpa using this

/-- Trimming a list put between two quote characters gives the list back,
when it has no quote character at either end. -/
theorem trimQuoteChars_wrapped (cs : List Char) (h : NoEdgeQuote cs) :
    trimQuoteChars ('"' :: (cs ++ ['"'])) = cs := by
  have h1 : ('"' :: (cs ++ ['"'])).rdropWhile (· == '"') =
      ('"' :: cs).rdropWhile (· == '"') := by
    rw [← List.cons_append, List.rdropWhile_concat_pos _ _ _ (by simp)]
  rw [trimQuoteChars, h1]
  cases hcs : cs.getLast? with
  | none =>
    have : cs = [] := by simpa using hcs
    subst this
    simp [List.rdropWhile_singleton]
  | some y =>
    have hy : y ≠ '"' := by
      intro hq
      rw [hq] at hcs
      exact h.2 hcs
    have hne : cs ≠ [] := by
      intro h0; rw [h0] at hcs; simp at hcs
    have h2 : ('"' :: cs).rdropWhile (· == '"') = '"' :: cs := by
      rw [List.rdropWhile_eq_self_iff]
      intro _
      rw [List.getLast_cons hne]
      have : cs.getLast hne = y := by
        have := List.getLast?_eq_getLast cs hne
        rw [hcs] at this
        exact (Option.some.inj this).symm
      simpa [this] using hy
    rw [h2, List.dropWhile_cons]
    simp only [beq_self_eq_true, if_true]
    cases cs with
    | nil => rfl
    | cons x t =>
      have hx : x ≠ '"' := by
        intro hq
        rw [hq] at h
        exact h.1 rfl
      rw [List.dropWhile_cons]
      simp [hx]

/-- Trimming removes a run of quote characters at the front and one at the
end, and nothing else. -/
theorem trimQuoteChars_decompose (cs : List Char) :
    ∃ pre post, cs = pre ++ trimQuoteChars cs ++ post ∧
      (∀ c, c ∈ pre → c = '"') ∧ (∀ c, c ∈ post → c = '"') := by
  refine ⟨(cs.rdropWhile (· == '"')).takeWhile (· == '"'), cs.rtakeWhile (· == '"'),
    ?_, ?_, ?_⟩
  · rw [trimQuoteChars, List.takeWhile_append_dropWhile]
    simp [List.rdropWhile, List.rtakeWhile, ← List.reverse_append]
  · intro c hc
    simpa using List.mem_takeWhile_imp hc
  · intro c hc
    simpa using List.mem_rtakeWhile_imp hc

/-- One turn of the loop of `MakeString` on a value that is not nil. -/
theorem makeStringLoop_cons (h : Host σ) (v : Value) (rest : List Value) (sb : String)
    (hv : v ≠ .absent) :
    makeStringLoop h (v :: rest) sb = makeStringLoop h rest (sb ++ trimQuote (h.render v)) := by
  cases v <;> first | exact absurd rfl hv | rfl

/-- The loop of `MakeString` on values that are not nil appends the trimmed
renderings, in order. -/
theorem makeStringLoop_concat (h : Host σ) :
    ∀ (vals : List Value) (sb : String), (∀ v, v ∈ vals → v ≠ .absent) →
      makeStringLoop h vals sb =
        .ok (sb ++ concatAll (vals.map (fun v => trimQuote (h.render v))))
  | [], sb, _ => by simp [makeStringLoop, concatAll]
  | v :: rest, sb, hall => by
    rw [makeStringLoop_cons h v rest sb (hall v (List.mem_cons_self v rest)),
      makeStringLoop_concat h rest _ (fun w hw => hall w (List.mem_cons_of_mem v hw))]
    simp [concatAll, String.append_assoc]

/-- With two values or more `MakeString` is its loop. -/
theorem MakeString_many (h : Host σ) (v1 v2 : Value) (rest : List Value) :
    MakeString h (v1 :: v2 :: rest) =
      match makeStringLoop h (v1 :: v2 :: rest) "" with
      | .ok str => .value (.string str)
      | .error p => .fault p := by
  cases v1 <;> rfl

/-- With one value that is neither nil nor `sabre.Nil{}`, `MakeString` is
the trimmed rendering. -/
theorem MakeString_single (h : Host σ) (v : Value) (hv1 : v ≠ .absent) (hv2 : v ≠ .nil) :
    MakeString h [v] = .value (.string (trimQuote (h.render v))) := by
  cases v <;> first | exact absurd rfl hv1 | exact absurd rfl hv2 | rfl

/-- C16. `MakeString` concatenates: with no value, with nil and with
`sabre.Nil{}` it is the empty string, and with two or more values none of
which is nil it is the concatenation, in the order of the arguments and
with no separator, of the renderings of the values, each with its
surrounding quote characters stripped (a run of quote characters at the
front and one at the end, and nothing else). -/
theorem MakeString_concatenation (h : Host σ) :
    MakeString h [] = .value (.string "") ∧
    MakeString h [.absent] = .value (.string "") ∧
    MakeString h [.nil] = .value (.string "") ∧
    (∀ v1 v2 rest, (∀ v, v ∈ v1 :: v2 :: rest → v ≠ .absent) →
      MakeString h (v1 :: v2 :: rest) =
        .value (.string (concatAll
          ((v1 :: v2 :: rest).map (fun v => trimQuote (h.render v)))))) ∧
    (∀ s : String, NoEdgeQuote (trimQuote s).data ∧
      ∃ pre post, s.data = pre ++ (trimQuote s).data ++ post ∧
        (∀ c, c ∈ pre → c = '"') ∧ (∀ c, c ∈ post → c = '"')) := by
  refine ⟨rfl, rfl, rfl, fun v1 v2 rest hall => ?_, fun s =>
    ⟨trimQuoteChars_noEdge s.data, trimQuoteChars_decompose s.data⟩⟩
  rw [MakeString_many, makeStringLoop_concat h _ _ hall]
  simp

/-- C16, the example of the spec: `str("a", "b")` is `"ab"`. -/
theorem MakeString_concatenation_witness :
    MakeString demoHost [.string "a", .string "b"] = .value (.string "ab") := by
  rw [(MakeString_concatenation demoHost).2.2.2.1 (.string "a") (.string "b") []
    (by
      intro v hv
      simp only [List.mem_cons, List.mem_singleton, List.not_mem_nil, or_false] at hv
      rcases hv with hv | hv <;> rw [hv] <;> exact fun hc => Value.noConfusion hc)]
  exact congrArg (fun str => Outcome.value (Value.string str)) (by decide)

/-- C17, as stated, fails: the string value whose content is a quote
character followed by `a` is rendered with three leading quote characters
in all, and `MakeString` removes every one of them, where the removal of
one layer keeps the inner one. -/
theorem MakeString_single_not_one_layer :
    ¬ (MakeString demoHost [.string "\"a"] =
      .value (.string (stripOneLayer (demoHost.render (.string "\"a"))))) := by
  intro hc
  have h1 : MakeString demoHost [.string "\"a"] = .value (.string "a") :=
    congrArg (fun str => Outcome.value (Value.string str)) (by decide)
  have h2 : stripOneLayer (demoHost.render (.string "\"a")) = "\"a" := by decide
  rw [h1, h2] at hc
  have h3 : "a" = "\"a" := Value.string.inj (Outcome.value.inj hc)
  exact absurd h3 (by decide)

/-- C17, amended. `MakeString` on a single value that is neither nil nor
`sabre.Nil{}` is the rendering of the value with every leading and every
trailing quote character removed: the result neither begins nor ends with
a quote character, and the rendering is the result between a run of quote
characters and another. -/
theorem MakeString_single_trims_all (h : Host σ) (v : Value) (hv1 : v ≠ .absent)
    (hv2 : v ≠ .nil) :
    MakeString h [v] = .value (.string (trimQuote (h.render v))) ∧
    NoEdgeQuote (trimQuote (h.render v)).data ∧
    ∃ pre post, (h.render v).data = pre ++ (trimQuote (h.render v)).data ++ post ∧
      (∀ c, c ∈ pre → c = '"') ∧ (∀ c, c ∈ post → c = '"') :=
  ⟨MakeString_single h v hv1 hv2, trimQuoteChars_noEdge _, trimQuoteChars_decompose _⟩

/-- C17, amended, at the string value whose content is a quote character
followed by `a`: the result is `a`. -/
theorem MakeString_single_trims_all_witness :
    MakeString demoHost [.string "\"a"] =
      .value (.string (trimQuote (demoHost.render (.string "\"a")))) ∧
    trimQuote (demoHost.render (.string "\"a")) = "a" :=
  ⟨(MakeString_single_trims_all demoHost (.string "\"a") (fun hc => Value.noConfusion hc)
    (fun hc => Value.noConfusion hc)).1, by decide⟩

/-- The loop of `MakeString` keeps the builder free of quote characters at
its ends. -/
theorem makeStringLoop_noEdge (h : Host σ) :
    ∀ (vals : List Value) (sb str : String), NoEdgeQuote sb.data →
      makeStringLoop h vals sb = .ok str → NoEdgeQuote str.data
  | [], sb, str, hsb, hok => by
    simp only [makeStringLoop, Except.ok.injEq] at hok
    rw [← hok]
    exact hsb
  | v :: rest, sb, str, hsb, hok => by
    by_cases hv : v = .absent
    · subst hv
      simp [makeStringLoop] at hok
    · rw [makeStringLoop_cons h v rest sb hv] at hok
      refine makeStringLoop_noEdge h rest _ str ?_ hok
      rw [String.data_append]
      exact hsb.append (trimQuoteChars_noEdge _)

/-- The string returned by `MakeString` neither begins nor ends with a quote
character. -/
theorem MakeString_noEdge (h : Host σ) (vals : List Value) (s : String)
    (hs : MakeString h vals = .value (.string s)) : NoEdgeQuote s.data := by
  have hempty : NoEdgeQuote ("" : String).data := by
    constructor <;> simp
  match vals, hs with
  | [], hs =>
    have : s = "" := (Value.string.inj (Outcome.value.inj hs)).symm
    rw [this]; exact hempty
  | [v], hs =>
    by_cases hv1 : v = .absent
    · subst hv1
      have : s = "" := (Value.string.inj (Outcome.value.inj hs)).symm
      rw [this]; exact hempty
    · by_cases hv2 : v = .nil
      · subst hv2
        have : s = "" := (Value.string.inj (Outcome.value.inj hs)).symm
        rw [this]; exact hempty
      · rw [MakeString_single h v hv1 hv2] at hs
        have : s = trimQuote (h.render v) := (Value.string.inj (Outcome.value.inj hs)).symm
        rw [this]
        exact trimQuoteChars_noEdge _
  | v1 :: v2 :: rest, hs =>
    rw [MakeString_many] at hs
    rcases hloop : makeStringLoop h (v1 :: v2 :: rest) "" with p | str
    · rw [hloop] at hs
      simp at hs
    · rw [hloop] at hs
      have : s = str := (Value.string.inj (Outcome.value.inj hs)).symm
      rw [this]
      exact makeStringLoop_noEdge h _ "" str hempty hloop

/-- C18. The message of `Throw` is the result of `MakeString`: in a host
that renders a string value as its content between two quote characters,
whenever `MakeString` returns the string `s` the error returned by `Throw`
has the message `s`, rendering `s` and trimming the quote characters again
gives `s` back, a panic of `MakeString` is the panic of `Throw`, and
`MakeString` does return a string when none of the values is nil. -/
theorem Throw_message_is_MakeString (h : Host σ)
    (hstr : ∀ s, h.render (.string s) = "\"" ++ s ++ "\"") (vals : List Value) :
    (∀ s, MakeString h vals = .value (.string s) →
      Throw h vals = .error (.errorsNew s) ∧ trimQuote (h.render (.string s)) = s) ∧
    (∀ p, MakeString h vals = .fault p → Throw h vals = .fault p) ∧
    ((∀ v, v ∈ vals → v ≠ .absent) → ∃ s, MakeString h vals = .value (.string s)) := by
  refine ⟨fun s hs => ?_, fun p hp => ?_, fun hall => ?_⟩
  · have htrim : trimQuote (h.render (.string s)) = s := by
      rw [hstr s]
      have hd : ("\"" ++ s ++ "\"").data = '"' :: (s.data ++ ['"']) := by
        simp [String.data_append]
      rw [trimQuote, hd, trimQuoteChars_wrapped s.data (MakeString_noEdge h vals s hs)]
    refine ⟨?_, htrim⟩
    simp only [Throw, hs, htrim]
  · simp only [Throw, hp]
  · match vals, hall with
    | [], _ => exact ⟨"", rfl⟩
    | [v], _ =>
      by_cases hv1 : v = .absent
      · subst hv1; exact ⟨"", rfl⟩
      · by_cases hv2 : v = .nil
        · subst hv2; exact ⟨"", rfl⟩
        · exact ⟨_, MakeString_single h v hv1 hv2⟩
    | v1 :: v2 :: rest, hall =>
      refine ⟨concatAll ((v1 :: v2 :: rest).map (fun v => trimQuote (h.render v))), ?_⟩
      rw [MakeString_many, makeStringLoop_concat h _ _ hall]
      simp

/-- C18 at `throw("a", "b")` in the concrete host: the message is `ab`. -/
theorem Throw_message_is_MakeString_witness :
    Throw demoHost [.string "a", .string "b"] = .error (.errorsNew "ab") :=
  ((Throw_message_is_MakeString demoHost (fun _ => rfl) [.string "a", .string "b"]).1 "ab"
    (congrArg (fun str => Outcome.value (Value.string str)) (by decide))).1

/-! ## `doSeq`: theorems -/

/-- The binding form of `doSeq`, for any host and any `Bind`: a first form
that is not a vector is the error "Invalid type" and nothing is evaluated;
with no form at all, and with a vector of fewer than two elements, the call
panics on an index out of range; with a vector of two elements or more
whose first element is not a symbol, the second element is evaluated first,
its error is returned if it fails, and the error
"invalid type; expected symbol" otherwise. -/
theorem doSeq_binding_form (h : Host σ) (bind : σ → String → Value → σ) (scope : σ) :
    doSeq h bind scope [] = (.fault (.indexOutOfRange 0 0), scope) ∧
    (∀ arg1 bodies, (∀ vs, arg1 ≠ .vector vs) →
      doSeq h bind scope (arg1 :: bodies) = (.error (.errorsNew "Invalid type"), scope)) ∧
    (∀ values bodies, values.length ≤ 1 →
      doSeq h bind scope (.vector values :: bodies) =
        (.fault (.indexOutOfRange 1 values.length), scope)) ∧
    (∀ first second rest bodies, second ≠ .absent → (∀ name, first ≠ .symbol name) →
      doSeq h bind scope (.vector (first :: second :: rest) :: bodies) =
        match h.eval scope second with
        | (.ok _, s1) => (.error (.errorsNew "invalid type; expected symbol"), s1)
        | (.error e, s1) => (.error (.host e), s1)) := by
  refine ⟨rfl, fun arg1 bodies hv => ?_, fun values bodies hl => ?_,
    fun first second rest bodies hsec hsym => ?_⟩
  · cases arg1 <;> first | exact absurd rfl (hv _) | rfl
  · simp only [doSeq, hl, if_true]
  · have hl : ¬ ((first :: second :: rest).length ≤ 1) := by simp
    have hev : evalMethod h scope second = liftEval (h.eval scope second) := by
      cases second <;> first | exact absurd rfl hsec | rfl
    simp only [doSeq, hl, if_false, List.getD_cons_succ, List.getD_cons_zero, hev]
    rcases h.eval scope second with ⟨x | v, s1⟩
    · rfl
    · cases first <;> first | exact absurd rfl (hsym _) | rfl

/-- C19. The binding form of `doseq`, at the calls `doseq()`,
`doseq([x])`, `doseq([])` and `doseq([1 y] body)` of the concrete host
(`y` unbound): the first three panic on an index out of range and the
fourth returns the error of evaluating `y`, not a type error; only a first
form that is not a vector, and a vector whose first element is not a
symbol and whose second element evaluates, end in a type error. -/
theorem doSeq_malformed_binding_panics :
    (doSeq demoHost demoBind [] [] = (.fault (.indexOutOfRange 0 0), []) ∧
      doSeq demoHost demoBind [] [.vector [.symbol "x"]] =
        (.fault (.indexOutOfRange 1 1), []) ∧
      doSeq demoHost demoBind [] [.vector []] = (.fault (.indexOutOfRange 1 0), []) ∧
      doSeq demoHost demoBind [] [.vector [.int64 1, .symbol "y"], .symbol "body"] =
        (.error (.host ⟨"unable to resolve symbol"⟩), [])) ∧
    (doSeq demoHost demoBind [] [.int64 1, .symbol "body"] =
        (.error (.errorsNew "Invalid type"), []) ∧
      doSeq demoHost demoBind [] [.vector [.int64 1, .list []], .symbol "body"] =
        (.error (.errorsNew "invalid type; expected symbol"), [])) := by
  have hform := doSeq_binding_form demoHost demoBind []
  refine ⟨⟨hform.1, hform.2.2.1 [.symbol "x"] [] (by decide), hform.2.2.1 [] [] (by decide),
    ?_⟩, ?_, ?_⟩
  · rw [hform.2.2.2 (.int64 1) (.symbol "y") [] [.symbol "body"]
      (fun hc => Value.noConfusion hc) (fun name hc => Value.noConfusion hc)]
    rfl
  · exact hform.2.1 (.int64 1) [.symbol "body"] (fun vs hc => Value.noConfusion hc)
  · rw [hform.2.2.2 (.int64 1) (.list []) [] [.symbol "body"]
      (fun hc => Value.noConfusion hc) (fun name hc => Value.noConfusion hc)]
    rfl

end Slang
